import Mathlib

/-!
Verification development for the wikiquote-to-git category pipeline.

The Rust sources are shallowly embedded:
* `Normalizer.normalize_category_name` (src/category_graph.rs) works on
  `List Char` (the character sequence of a Rust `String`); Rust's Unicode
  `\s` / `char::is_whitespace` class is the explicit `wsChar` list, and the
  case-insensitive namespace regex is matched character-wise by `foldEq`,
  which renders the regex crate's Unicode simple case folding on the
  pattern's characters: each pattern letter's fold orbit is `{x, X}`,
  except `k` whose orbit also contains U+212A KELVIN SIGN (the only
  non-ASCII code point that simple-case-folds onto a letter of the
  patterns), and `:` which has no case.
* `Graph` (src/category_graph.rs) keeps the three fields of the Rust struct;
  the `bimap::BiMap` is an association list whose `insert` removes any pair
  sharing the new left or right component, exactly as the crate does, and
  `HashMap` edge labels are an association list with overwrite-on-insert.
* `Graph.walk_dfs_post_order` is the explicit-stack loop of the source,
  written as a step function `walkStep` iterated by `walkLoop` on a fuel
  argument; the fuel `walkFuel` is shown sufficient.  The `BitVec` of
  visited nodes is modelled as the `Finset` of its true indices, and the
  state additionally carries `order`, a ghost log of the visitor
  invocations `(node, forbidden)` in the order the loop makes them.
-/

/-! ## Characters: Rust whitespace, ASCII lowercase, UTF-8 sizes -/

/-- The Unicode `White_Space` class: what Rust's `char::is_whitespace` and the
`regex` crate's `\s` both accept.  Note U+200E (left-to-right mark) is *not*
in this class. -/
def wsChar (c : Char) : Bool :=
  c ∈ ['\t', '\n', (Char.ofNat 0x0B), (Char.ofNat 0x0C), '\r', ' ',
       (Char.ofNat 0x85), (Char.ofNat 0xA0), (Char.ofNat 0x1680),
       (Char.ofNat 0x2000), (Char.ofNat 0x2001), (Char.ofNat 0x2002),
       (Char.ofNat 0x2003), (Char.ofNat 0x2004), (Char.ofNat 0x2005),
       (Char.ofNat 0x2006), (Char.ofNat 0x2007), (Char.ofNat 0x2008),
       (Char.ofNat 0x2009), (Char.ofNat 0x200A), (Char.ofNat 0x2028),
       (Char.ofNat 0x2029), (Char.ofNat 0x202F), (Char.ofNat 0x205F),
       (Char.ofNat 0x3000)]

/-- The left-to-right mark U+200E, the single entry of the normalizer's
`bad_chars` list. -/
def ltrMark : Char := Char.ofNat 0x200E

/-- ASCII lowercasing; `foldEq` builds the case-folding match of the
namespace regex on top of it. -/
def asciiLower (c : Char) : Char :=
  if 'A' ≤ c ∧ c ≤ 'Z' then Char.ofNat (c.toNat + 32) else c

/-- U+212A KELVIN SIGN, whose Unicode simple case folding is `k`. -/
def kelvinSign : Char := Char.ofNat 0x212A

/-- `foldEq p c`: the haystack character `c` matches the pattern character
`p` (written in lowercase) under the `regex` crate's case-insensitive mode,
which equates characters with equal Unicode simple case foldings.  For the
characters of `^(Kategoria|Category):` the fold orbits are: `{x, X}` for
every letter except `k`, whose orbit is `{k, K, U+212A KELVIN SIGN}`, and
`{:}` for the caseless colon.  (U+212A is the only non-ASCII code point
with a C/S entry of `CaseFolding.txt` targeting a letter of the patterns;
U+0130 and U+0131 fold to `i` only under the Turkic mappings, which the
crate does not apply, and U+017F folds to `s`, absent here.) -/
def foldEq (p c : Char) : Bool :=
  decide (asciiLower c = p) || (decide (p = 'k') && decide (c = kelvinSign))

/-- `listMatchCI p l` holds when the pattern `p` matches an initial segment
of `l` character by character under `foldEq`. -/
def listMatchCI : List Char → List Char → Bool
  | [], _ => true
  | _ :: _, [] => false
  | p :: ps, c :: cs => foldEq p c && listMatchCI ps cs

/-- The number of bytes of the UTF-8 encoding of `c`; models Rust's byte-based
`str::len` on single characters. -/
def charUtf8Size (c : Char) : Nat :=
  if c.toNat < 0x80 then 1
  else if c.toNat < 0x800 then 2
  else if c.toNat < 0x10000 then 3
  else 4

/-- Byte length of a string given as its character list: Rust `str::len`. -/
def rustStrLen (l : List Char) : Nat := (l.map charUtf8Size).sum

/-! ## Normalizer (src/category_graph.rs, `normalize_category_name`) -/

/-- The regex `^(Kategoria|Category):` with case-insensitivity (Unicode
simple case folding, via `foldEq`). -/
def kat_match (s : List Char) : Bool :=
  listMatchCI "kategoria:".data s || listMatchCI "category:".data s

/-- Rust `str::trim`: drop Unicode whitespace from both ends. -/
def trimWs (l : List Char) : List Char :=
  ((l.dropWhile wsChar).reverse.dropWhile wsChar).reverse

/-- Worker for `collapseWs`.  The flag records whether we are inside a
whitespace run whose single replacement `' '` has already been emitted. -/
def collapseGo : Bool → List Char → List Char
  | _, [] => []
  | inWs, c :: rest =>
    if wsChar c then
      if inWs then collapseGo true rest else ' ' :: collapseGo true rest
    else c :: collapseGo false rest

/-- `Regex::new(r"\s+").replace_all(s, " ")`: every maximal whitespace run
becomes a single space. -/
def collapseWs (l : List Char) : List Char := collapseGo false l

/-- `Normalizer::normalize_category_name`: strip the namespace selector
through the first `':'` when the case-insensitive regex matches, trim,
collapse whitespace runs, then delete the left-to-right marks. -/
def normalize_category_name (s : List Char) : List Char × Bool :=
  let t :=
    if kat_match s then (s.drop (s.findIdx (fun c => decide (c = ':')) + 1), true)
    else (s, false)
  let s2 := trimWs t.1
  let s3 := collapseWs s2
  let s4 := s3.filter (fun c => decide (c ≠ ltrMark))
  (s4, t.2)

/-- Modelled from the spec's wording of prefix stripping: remove the
namespace prefix itself (10 chars for `kategoria:`, 9 for `category:`) when
it matches case-insensitively.  Used to state that the source's
`find(':')`-based slicing removes exactly the matched prefix. -/
def stripNsSpec (s : List Char) : List Char :=
  if listMatchCI "kategoria:".data s then s.drop 10
  else if listMatchCI "category:".data s then s.drop 9
  else s

/-- A title whose namespace selector matches the regex only through Unicode
simple case folding: it begins with U+212A KELVIN SIGN in place of `K`. -/
def kelvinTitle : List Char := kelvinSign :: "ategoria: a  b".data

/-! ## Extractor label fallback (src/category_graph.rs, `extract_node`) -/

/-- The edge label computed by the `Node::Category` arm of
`CategoryExtractor::extract_node`, given the flattened anchor text
`extracted` (the value of `extr.result()`): trim it; if the result is empty,
or its *byte* length is 1 and its first character is not alphanumeric,
substitute the document's own `site` name. -/
def categoryEdgeLabel (site : List Char) (extracted : List Char) : List Char :=
  let label := trimWs extracted
  if label.isEmpty || (rustStrLen label == 1 && !(label.headD 'a').isAlphanum)
  then site else label

/-! ## The label graph (src/category_graph.rs, `Graph`) -/

/-- A node identity: `(name, kind)` where `kind` is the is-category flag. -/
abbrev Identity := String × Bool



/-- Per-node adjacency, as in the Rust `NodeData` struct. -/
structure NodeData where
  outgoing : List Nat
  incoming : List Nat
deriving DecidableEq, Repr

/-- The Rust `Graph` struct: dense node data, a bidirectional
index ↔ identity map, and per-edge labels. -/
structure Graph where
  node_data : List NodeData
  node_labels : List (Nat × Identity)
  edge_labels : List ((Nat × Nat) × String)
deriving DecidableEq, Repr

/-- `Graph::default()`. -/
def Graph.empty : Graph := ⟨[], [], []⟩

/-- `Graph::len`. -/
def Graph.len (g : Graph) : Nat := g.node_data.length

/-- `bimap::BiMap::insert`: remove every pair sharing the left or the right
component, then add the new pair. -/
def biInsert (m : List (Nat × Identity)) (l : Nat) (r : Identity) :
    List (Nat × Identity) :=
  (l, r) :: m.filter (fun p => decide (p.1 ≠ l) && decide (p.2 ≠ r))

/-- `BiMap::get_by_left`. -/
def biGetByLeft (m : List (Nat × Identity)) (l : Nat) : Option Identity :=
  (m.find? (fun p => decide (p.1 = l))).map (·.2)

/-- `BiMap::get_by_right`. -/
def biGetByRight (m : List (Nat × Identity)) (r : Identity) : Option Nat :=
  (m.find? (fun p => decide (p.2 = r))).map (·.1)

/-- `Graph::add_vertex`: push empty node data, insert the pairing, return the
new index. -/
def Graph.add_vertex (g : Graph) (label : Identity) : Graph × Nat :=
  let new_idx := g.node_data.length
  ({ node_data := g.node_data ++ [⟨[], []⟩],
     node_labels := biInsert g.node_labels new_idx label,
     edge_labels := g.edge_labels }, new_idx)

/-- `Graph::add_edge`: guarded by the bound check against
`node_labels.len()`; pushes the adjacency entries and overwrites the edge
label for the `(from, to)` pair. -/
def Graph.add_edge (g : Graph) (e : Nat × Nat) (label : String) : Graph :=
  if e.1 < g.node_labels.length ∧ e.2 < g.node_labels.length then
    let dl := g.node_data.getD e.1 ⟨[], []⟩
    let d1 := g.node_data.set e.1 { dl with outgoing := dl.outgoing ++ [e.2] }
    let dr := d1.getD e.2 ⟨[], []⟩
    let d2 := d1.set e.2 { dr with incoming := dr.incoming ++ [e.1] }
    { g with node_data := d2,
             edge_labels := (e, label) :: g.edge_labels.filter
               (fun p => decide (p.1 ≠ e)) }
  else g

/-- `Graph::find_vertex`. -/
def Graph.find_vertex (g : Graph) (label : Identity) : Option Nat :=
  biGetByRight g.node_labels label

/-- `Graph::find_or_add_vertex`. -/
def Graph.find_or_add_vertex (g : Graph) (label : Identity) : Graph × Nat :=
  match g.find_vertex label with
  | some n => (g, n)
  | none => g.add_vertex label

/-- `Graph::add`: find-or-create both endpoints, then wire the edge. -/
def Graph.add (g : Graph) (vtx1 : Identity) (edge : String) (vtx2 : Identity) :
    Graph :=
  let p1 := g.find_or_add_vertex vtx1
  let p2 := p1.1.find_or_add_vertex vtx2
  p2.1.add_edge (p1.2, p2.2) edge

/-- `Graph::roots`: the enumeration loop keeps, in index order, every node
whose incoming list is empty. -/
def Graph.roots (g : Graph) : List Nat :=
  (List.range g.node_data.length).filter
    (fun i => (g.node_data.getD i ⟨[], []⟩).incoming.isEmpty)

/-- `Graph::get_vertex_label`; the Rust source unwraps, so `none` models the
panic. -/
def Graph.get_vertex_label (g : Graph) (id : Nat) : Option Identity :=
  biGetByLeft g.node_labels id

/-- `Graph::get_edge_label`; `none` models the panic of the unwrap. -/
def Graph.get_edge_label (g : Graph) (e : Nat × Nat) : Option String :=
  (g.edge_labels.find? (fun p => decide (p.1 = e))).map (·.2)

/-- Outgoing list of node `n` (`self.node_data[node].outgoing`). -/
def Graph.outgoing (g : Graph) (n : Nat) : List Nat :=
  (g.node_data.getD n ⟨[], []⟩).outgoing

/-- Representation invariant of every graph reachable through the public
construction path (`Default` then `add` / `find_or_add_vertex`): the two
sides of the bimap are keyed uniquely, every recorded index is dense, and
every adjacency entry is in range. -/
def Graph.WF (g : Graph) : Prop :=
  g.node_labels.length = g.node_data.length ∧
  (∀ p ∈ g.node_labels, p.1 < g.node_data.length) ∧
  (g.node_labels.map Prod.fst).Nodup ∧
  (g.node_labels.map Prod.snd).Nodup ∧
  (∀ d ∈ g.node_data, ∀ c ∈ d.outgoing, c < g.node_data.length)

instance (g : Graph) : Decidable g.WF := by
  unfold Graph.WF
  infer_instance

/-! ## Root selection (src/main.rs, `process_categories`) -/

/-- The fatal `NoRootCategoryError` of src/main.rs. -/
inductive ProcessError where
  | noRootCategory
deriving DecidableEq, Repr

/-- Root choice of `process_categories`: a non-empty search string is looked
up as a category identity; on a miss (or with no search string) the first
entry of `roots()` is used. -/
def found_root (g : Graph) (search : String) : Option Nat :=
  if search.isEmpty = false then
    match g.find_vertex (search, true) with
    | none => (g.roots).head?
    | some n => some n
  else (g.roots).head?

/-- The error behaviour of `process_categories` around root selection: with
no root found the run fails with `NoRootCategoryError`, otherwise the chosen
root is handed to the compile phase. -/
def process_categories_root (g : Graph) (search : String) :
    Except ProcessError Nat :=
  match found_root g search with
  | some root => Except.ok root
  | none => Except.error ProcessError.noRootCategory

/-! ## The cycle-safe walk (src/category_graph.rs, `walk_dfs_post_order`) -/

/-- `edge_cuts` lookup: the forbidden children recorded for `n`
(`edge_cuts.get(&node).unwrap_or(&empty)`). -/
def cutsOf (cuts : List (Nat × List Nat)) (n : Nat) : List Nat :=
  match cuts.find? (fun p => decide (p.1 = n)) with
  | some p => p.2
  | none => []

/-- `edge_cuts` update: push `c` onto the vector for `n`, creating it if
absent (the `match edge_cuts.get_mut(&node)` block). -/
def cutsAdd (cuts : List (Nat × List Nat)) (n c : Nat) :
    List (Nat × List Nat) :=
  match cuts.find? (fun p => decide (p.1 = n)) with
  | some _ => cuts.map (fun p => if p.1 = n then (p.1, p.2 ++ [c]) else p)
  | none => (n, [c]) :: cuts

/-- The loop state of `walk_dfs_post_order`.  `visited` is the bit vector as
the set of its true indices; `stack` holds `(node, children_visited)` frames
with the top at the head; `path` and `cuts` are the `HashSet` and `HashMap`
of the source; `order` is a ghost log of the visitor invocations. -/
structure WalkState where
  visited : Finset Nat
  stack : List (Nat × Nat)
  path : Finset Nat
  cuts : List (Nat × List Nat)
  order : List (Nat × List Nat)
deriving DecidableEq

/-- Result of one loop iteration. -/
inductive StepRes (E : Type) where
  | cont (s : WalkState)
  | done (s : WalkState)
  | fail (e : E) (s : WalkState)

/-- One iteration of the `while !stack.is_empty()` loop, with visitor `f`. -/
def walkStep {E : Type} (g : Graph) (f : Nat → List Nat → Except E Unit)
    (s : WalkState) : StepRes E :=
  match s.stack with
  | [] => StepRes.done s
  | (node, children_visited) :: rest =>
    let path := insert node s.path
    let visited := insert node s.visited
    if h : children_visited < (g.outgoing node).length then
      let next_child := (g.outgoing node).get ⟨children_visited, h⟩
      let cuts := if next_child ∈ path then cutsAdd s.cuts node next_child
                  else s.cuts
      let stack :=
        if next_child ∈ visited then (node, children_visited + 1) :: rest
        else (next_child, 0) :: (node, children_visited + 1) :: rest
      StepRes.cont ⟨visited, stack, path, cuts, s.order⟩
    else
      let forbidden := cutsOf s.cuts node
      match f node forbidden with
      | Except.error e =>
        StepRes.fail e ⟨visited, rest, path, s.cuts, s.order ++ [(node, forbidden)]⟩
      | Except.ok _ =>
        StepRes.cont ⟨visited, rest, path.erase node, s.cuts,
                      s.order ++ [(node, forbidden)]⟩

/-- Outcome of the whole walk: `Ok(visited)` or the propagated visitor
error, each together with the final (ghost-logged) state. -/
inductive WalkRes (E : Type) where
  | ok (s : WalkState)
  | err (e : E) (s : WalkState)

/-- The loop, iterated on a fuel argument; `none` would mean fuel ran out
(shown impossible from `walkFuel` below). -/
def walkLoop {E : Type} (g : Graph) (f : Nat → List Nat → Except E Unit) :
    Nat → WalkState → Option (WalkRes E)
  | 0, _ => none
  | fuel + 1, s =>
    match walkStep g f s with
    | StepRes.done s' => some (WalkRes.ok s')
    | StepRes.fail e s' => some (WalkRes.err e s')
    | StepRes.cont s' => walkLoop g f fuel s'

/-- Fuel sufficient for the whole walk. -/
def walkFuel (g : Graph) : Nat :=
  ∑ n ∈ Finset.range g.len, 2 * ((g.outgoing n).length + 1)

/-- The initial loop state: nothing visited, `stack.push((start, 0))`. -/
def initWalkState (start : Nat) : WalkState := ⟨∅, [(start, 0)], ∅, [], []⟩

/-- `Graph::walk_dfs_post_order`. -/
def Graph.walk_dfs_post_order {E : Type} (g : Graph) (start : Nat)
    (f : Nat → List Nat → Except E Unit) : Option (WalkRes E) :=
  walkLoop g f (walkFuel g) (initWalkState start)

/-- The always-succeeding visitor (`|_, _| Result::Ok(())` of
`process_categories`). -/
def okVis : Nat → List Nat → Except Unit Unit := fun _ _ => Except.ok ()

/-- The visitor-invocation sequence of a successful walk. -/
def walkOrderOf (g : Graph) (start : Nat) : List (Nat × List Nat) :=
  match g.walk_dfs_post_order start okVis with
  | some (WalkRes.ok s) => s.order
  | _ => []

/-- Graph reachability along outgoing edges. -/
def Reachable (g : Graph) (a b : Nat) : Prop :=
  Relation.ReflTransGen (fun x y => y ∈ g.outgoing x) a b

/-- An invocation log is post-ordered when, at every position, each
non-forbidden child of the invoked node was invoked strictly earlier. -/
def PostOrdered (g : Graph) (ord : List (Nat × List Nat)) : Prop :=
  ∀ i, (hi : i < ord.length) → ∀ c ∈ g.outgoing (ord.get ⟨i, hi⟩).1,
    c ∉ (ord.get ⟨i, hi⟩).2 →
    ∃ j, ∃ hj : j < i, (ord.get ⟨j, lt_trans hj hi⟩).1 = c

/-- The index → hash map discipline of `store_categories_in_git`, keys only:
`done` holds the indices already inserted into `hashes`; for each invocation
every non-forbidden outgoing child must already be present (this check is the
`hashes.get(out).expect("Children should be already added")`), then the node
itself is inserted. -/
def storeLookupsOk (g : Graph) : List (Nat × List Nat) → List Nat → Bool
  | [], _ => true
  | (n, forb) :: rest, done =>
    (g.outgoing n).all (fun c => decide (c ∈ forb) || decide (c ∈ done)) &&
    storeLookupsOk g rest (n :: done)

/-! ## Walk invariants -/

/-- A partially expanded frame `(n, cv)` is sound when every already
examined child (offset `< cv`) is recorded as a cut of `n`, already finished
(in the order log), or is one of the open nodes stacked above the frame. -/
def FrameOk (g : Graph) (cuts : List (Nat × List Nat)) (orderN : List Nat)
    (above : List Nat) (fr : Nat × Nat) : Prop :=
  ∀ k, k < fr.2 → ∀ c, (g.outgoing fr.1).get? k = some c →
    c ∈ cutsOf cuts fr.1 ∨ c ∈ orderN ∨ c ∈ above

/-- `FrameOk` for every frame of the stack, where `above` accumulates the
nodes of the frames nearer the top. -/
def StackInv (g : Graph) (cuts : List (Nat × List Nat)) (orderN : List Nat) :
    List Nat → List (Nat × Nat) → Prop
  | _, [] => True
  | above, fr :: rest =>
    FrameOk g cuts orderN above fr ∧
    StackInv g cuts orderN (fr.1 :: above) rest

/-- The loop invariant of `walk_dfs_post_order`. -/
structure WalkInv (g : Graph) (start : Nat) (s : WalkState) : Prop where
  nodup_stack : (s.stack.map Prod.fst).Nodup
  tail_visited : ∀ fr ∈ s.stack.tail, fr.1 ∈ s.visited
  stack_lt : ∀ fr ∈ s.stack, fr.1 < g.len
  stack_cv : ∀ fr ∈ s.stack, fr.2 ≤ (g.outgoing fr.1).length
  visited_lt : ∀ n ∈ s.visited, n < g.len
  path_iff : ∀ n, n ∈ s.path ↔ n ∈ s.stack.map Prod.fst ∧ n ∈ s.visited
  visited_iff : ∀ n, n ∈ s.visited ↔ n ∈ s.order.map Prod.fst ∨ n ∈ s.path
  nodup_order : (s.order.map Prod.fst).Nodup
  order_stack_disj : ∀ n ∈ s.order.map Prod.fst, n ∉ s.stack.map Prod.fst
  reach_stack : ∀ fr ∈ s.stack, Reachable g start fr.1
  reach_visited : ∀ n ∈ s.visited, Reachable g start n
  start_mem : start ∈ s.visited ∨ start ∈ s.stack.map Prod.fst
  cuts_visited : ∀ n c, c ∈ cutsOf s.cuts n → c ∈ s.visited
  order_children : ∀ p ∈ s.order, ∀ c ∈ g.outgoing p.1, c ∈ s.visited
  post_ordered : PostOrdered g s.order
  stack_inv : StackInv g s.cuts (s.order.map Prod.fst) [] s.stack

/-- Weight of a stack frame for the termination measure. -/
def frameWeight (g : Graph) (fr : Nat × Nat) : Nat :=
  2 * ((g.outgoing fr.1).length + 1 - fr.2) - 1

/-- Termination measure: stacked frame weights plus full weight for every
in-range node neither visited nor stacked. -/
def phi (g : Graph) (s : WalkState) : Nat :=
  (s.stack.map (frameWeight g)).sum +
  ∑ n ∈ (Finset.range g.len).filter
      (fun n => n ∉ s.visited ∧ n ∉ s.stack.map Prod.fst),
    2 * ((g.outgoing n).length + 1)

/-! ## Concrete graphs for the examples and witnesses -/

/-- The two-cycle `{A→B, B→A}` of the spec's cycle-neutralization scenario;
`A` gets index 0, `B` index 1. -/
def cycleGraph : Graph :=
  (Graph.empty.add ("A", true) "x" ("B", true)).add ("B", true) "y" ("A", true)

/-- The chain `A→B, B→C` of the spec's root-detection scenario. -/
def chainGraph : Graph :=
  (Graph.empty.add ("A", true) "x" ("B", true)).add ("B", true) "y" ("C", true)

/-! ## Basic lookup lemmas -/

set_option maxRecDepth 10000

lemma find?_filter_of_imp {α : Type} (l : List α) (p q : α → Bool)
    (h : ∀ x ∈ l, p x = true → q x = true) :
    (l.filter q).find? p = l.find? p := by
  induction l with
  | nil => rfl
  | cons a t ih =>
    by_cases hq : q a
    · rw [List.filter_cons_of_pos hq]
      by_cases hp : p a
      · rw [List.find?_cons_of_pos _ hp, List.find?_cons_of_pos _ hp]
      · rw [List.find?_cons_of_neg _ (by simpa using hp),
            List.find?_cons_of_neg _ (by simpa using hp)]
        exact ih (fun x hx => h x (List.mem_cons_of_mem a hx))
    · rw [List.filter_cons_of_neg (by simpa using hq)]
      have hp : ¬ p a = true := fun hpa => hq (h a (List.mem_cons_self a t) hpa)
      rw [List.find?_cons_of_neg _ (by simpa using hp)]
      exact ih (fun x hx => h x (List.mem_cons_of_mem a hx))

lemma nodup_fst_inj {α β : Type} {l : List (α × β)}
    (h : (l.map Prod.fst).Nodup) {a : α} {b₁ b₂ : β}
    (h₁ : (a, b₁) ∈ l) (h₂ : (a, b₂) ∈ l) : b₁ = b₂ := by
  induction l with
  | nil => cases h₁
  | cons p t ih =>
    rw [List.map_cons, List.nodup_cons] at h
    rcases List.mem_cons.mp h₁ with e₁ | m₁
    · rcases List.mem_cons.mp h₂ with e₂ | m₂
      · rw [← e₁] at e₂
        exact (Prod.mk.injEq _ _ _ _ ▸ e₂.symm).2
      · exfalso
        apply h.1
        rw [← e₁]
        simpa using List.mem_map_of_mem Prod.fst m₂
    · rcases List.mem_cons.mp h₂ with e₂ | m₂
      · exfalso
        apply h.1
        rw [← e₂]
        simpa using List.mem_map_of_mem Prod.fst m₁
      · exact ih h.2 m₁ m₂

/-! ## C8: roots -/

/-- Claim C8: `roots()` returns exactly the indices of nodes with an empty
incoming list, in ascending index order, and on the chain `A→B, B→C` it
returns exactly the index of `A`. -/
theorem roots_exactly_no_incoming :
    (∀ g : Graph, ∀ i : Nat,
        (i ∈ g.roots ↔ i < g.len ∧ (g.node_data.getD i ⟨[], []⟩).incoming = [])) ∧
    (∀ g : Graph, g.roots.Pairwise (· < ·)) ∧
    chainGraph.roots = [0] := by
  refine ⟨fun g i => ?_, fun g => ?_, by decide⟩
  · simp only [Graph.roots, List.mem_filter, List.mem_range, List.isEmpty_iff,
      Graph.len]
  · exact (List.pairwise_lt_range _).filter _

/-! ## C10: duplicate add_vertex drops the older pairing -/

/-- Claim C10: calling `add_vertex` directly with an identity already bound
to index `i` makes the bimap drop the old pairing: `find_vertex` then
returns the fresh index, and `get_vertex_label` on `i` hits the `unwrap`
panic (modelled as `none`). -/
theorem add_vertex_duplicate_drops_old (g : Graph) (i : Nat) (lab : Identity)
    (hwf : g.WF) (hmem : (i, lab) ∈ g.node_labels) :
    (g.add_vertex lab).2 = g.len ∧
    i ≠ (g.add_vertex lab).2 ∧
    (g.add_vertex lab).1.find_vertex lab = some (g.add_vertex lab).2 ∧
    (g.add_vertex lab).1.get_vertex_label i = none := by
  obtain ⟨hlen, hlt, hfst, hsnd, hedge⟩ := hwf
  have hi : i < g.node_data.length := hlt _ hmem
  refine ⟨rfl, by simpa [Graph.add_vertex, Graph.len] using Nat.ne_of_lt hi, ?_, ?_⟩
  · simp only [Graph.add_vertex, Graph.find_vertex, biGetByRight, biInsert]
    have hhead : List.find? (fun p => decide (p.2 = lab))
        ((g.node_data.length, lab) ::
          g.node_labels.filter
            (fun p => decide (p.1 ≠ g.node_data.length) && decide (p.2 ≠ lab))) =
        some (g.node_data.length, lab) :=
      List.find?_cons_of_pos _ (by simp)
    rw [hhead]
    rfl
  · simp only [Graph.add_vertex, Graph.get_vertex_label, biGetByLeft, biInsert]
    have hhead : List.find? (fun p => decide (p.1 = i))
        ((g.node_data.length, lab) ::
          g.node_labels.filter
            (fun p => decide (p.1 ≠ g.node_data.length) && decide (p.2 ≠ lab))) =
        List.find? (fun p => decide (p.1 = i))
          (g.node_labels.filter
            (fun p => decide (p.1 ≠ g.node_data.length) && decide (p.2 ≠ lab))) :=
      List.find?_cons_of_neg _ (by simp [Ne.symm (Nat.ne_of_lt hi)])
    rw [hhead]
    have hnone : List.find? (fun p => decide (p.1 = i))
        (g.node_labels.filter
          (fun p => decide (p.1 ≠ g.node_data.length) && decide (p.2 ≠ lab))) =
        none := by
      rw [List.find?_eq_none]
      intro x hx hpx
      have hxl : x ∈ g.node_labels := List.mem_of_mem_filter hx
      have hxf := List.of_mem_filter hx
      have hx1 : x.1 = i := by simpa using hpx
      have hx2 : x.2 ≠ lab := by
        simpa using (Bool.and_elim_right hxf)
      apply hx2
      have hxeq : x = (x.1, x.2) := rfl
      rw [hxeq, hx1] at hxl
      exact nodup_fst_inj hfst hxl hmem
    rw [hnone]
    rfl

/-- Witness for C10 at a one-node graph. -/
theorem add_vertex_duplicate_drops_old_witness :
    ((Graph.empty.add_vertex ("A", true)).1.add_vertex ("A", true)).2 =
      (Graph.empty.add_vertex ("A", true)).1.len ∧
    0 ≠ ((Graph.empty.add_vertex ("A", true)).1.add_vertex ("A", true)).2 ∧
    ((Graph.empty.add_vertex ("A", true)).1.add_vertex
        ("A", true)).1.find_vertex ("A", true) =
      some ((Graph.empty.add_vertex ("A", true)).1.add_vertex ("A", true)).2 ∧
    ((Graph.empty.add_vertex ("A", true)).1.add_vertex
        ("A", true)).1.get_vertex_label 0 = none :=
  add_vertex_duplicate_drops_old (Graph.empty.add_vertex ("A", true)).1 0
    ("A", true) (by decide) (by decide)

/-! ## C5: find_or_add_vertex -/

/-- Counterexample to claim C5 as stated: on a graph that already contains
the identity, two further `find_or_add_vertex` calls leave the node count
unchanged instead of increasing it by exactly 1. -/
theorem find_or_add_twice_count_cex :
    (((Graph.empty.find_or_add_vertex
        ("A", true)).1.find_or_add_vertex
        ("A", true)).1.find_or_add_vertex ("A", true)).1.len =
      (Graph.empty.find_or_add_vertex ("A", true)).1.len ∧
    ¬ (((Graph.empty.find_or_add_vertex
        ("A", true)).1.find_or_add_vertex
        ("A", true)).1.find_or_add_vertex ("A", true)).1.len =
      (Graph.empty.find_or_add_vertex ("A", true)).1.len + 1 := by
  decide

/-- Claim C5, amended: two successive `find_or_add_vertex` calls with the
same identity return the same index and the second call does not change the
graph at all; the node count grows by exactly 1 when the identity was absent
and by 0 when it was already present. -/
theorem find_or_add_twice_amended (g : Graph) (id : Identity) :
    ((g.find_or_add_vertex id).1.find_or_add_vertex id).2 =
      (g.find_or_add_vertex id).2 ∧
    ((g.find_or_add_vertex id).1.find_or_add_vertex id).1 =
      (g.find_or_add_vertex id).1 ∧
    (g.find_vertex id = none →
      ((g.find_or_add_vertex id).1.find_or_add_vertex id).1.len = g.len + 1) ∧
    (∀ n, g.find_vertex id = some n →
      ((g.find_or_add_vertex id).1.find_or_add_vertex id).1.len = g.len) := by
  cases hf : g.find_vertex id with
  | some n =>
    simp [Graph.find_or_add_vertex, hf]
  | none =>
    have hfind : (g.add_vertex id).1.find_vertex id =
        some (g.add_vertex id).2 := by
      simp only [Graph.add_vertex, Graph.find_vertex, biGetByRight, biInsert]
      have hhead : List.find? (fun p => decide (p.2 = id))
          ((g.node_data.length, id) ::
            g.node_labels.filter
              (fun p => decide (p.1 ≠ g.node_data.length) && decide (p.2 ≠ id))) =
          some (g.node_data.length, id) :=
        List.find?_cons_of_pos _ (by simp)
      rw [hhead]
      rfl
    have e1 : g.find_or_add_vertex id = g.add_vertex id := by
      simp [Graph.find_or_add_vertex, hf]
    have e2 : (g.add_vertex id).1.find_or_add_vertex id =
        ((g.add_vertex id).1, (g.add_vertex id).2) := by
      simp [Graph.find_or_add_vertex, hfind]
    rw [e1, e2]
    refine ⟨rfl, rfl, fun _ => ?_, fun m hm => ?_⟩
    · simp [Graph.add_vertex, Graph.len]
    · simp at hm

/-- Witness for C5's amended theorem: on the empty graph the two calls net a
single fresh node. -/
theorem find_or_add_twice_amended_witness :
    ((Graph.empty.find_or_add_vertex
        ("A", true)).1.find_or_add_vertex ("A", true)).1.len =
      Graph.empty.len + 1 :=
  (find_or_add_twice_amended Graph.empty ("A", true)).2.2.1 (by decide)

/-! ## Specification lemmas for find_or_add_vertex / add_edge -/

lemma find_vertex_of_labels_eq {g g' : Graph}
    (h : g'.node_labels = g.node_labels) (lab : Identity) :
    g'.find_vertex lab = g.find_vertex lab := by
  simp [Graph.find_vertex, biGetByRight, h]

lemma find_vertex_lt {g : Graph} {lab : Identity} {n : Nat} (hwf : g.WF)
    (h : g.find_vertex lab = some n) : n < g.node_labels.length := by
  obtain ⟨hlen, hlt, -, -, -⟩ := hwf
  have h' : (g.node_labels.find? (fun p => decide (p.2 = lab))).map (·.1) =
      some n := h
  obtain ⟨p, hp, hpn⟩ := Option.map_eq_some'.mp h'
  have hpn' : p.1 = n := hpn
  have hm := hlt p (List.mem_of_find?_eq_some hp)
  omega

lemma find_vertex_none_all {g : Graph} {lab : Identity}
    (hf : g.find_vertex lab = none) : ∀ x ∈ g.node_labels, ¬ x.2 = lab := by
  have h' : (g.node_labels.find? (fun p => decide (p.2 = lab))).map (·.1) =
      none := hf
  have hfn := Option.map_eq_none'.mp h'
  intro x hx hx2
  have := List.find?_eq_none.mp hfn x hx
  simp [hx2] at this

lemma find_or_add_spec (g : Graph) (lab : Identity) (hwf : g.WF) :
    ((g.find_or_add_vertex lab).1).WF ∧
    (g.find_or_add_vertex lab).1.find_vertex lab =
      some (g.find_or_add_vertex lab).2 ∧
    (g.find_or_add_vertex lab).2 < (g.find_or_add_vertex lab).1.node_labels.length ∧
    g.node_labels.length ≤ (g.find_or_add_vertex lab).1.node_labels.length ∧
    (∀ lab' n, g.find_vertex lab' = some n →
      (g.find_or_add_vertex lab).1.find_vertex lab' = some n) ∧
    (g.find_or_add_vertex lab).1.edge_labels = g.edge_labels := by
  cases hf : g.find_vertex lab with
  | some n =>
    have e1 : g.find_or_add_vertex lab = (g, n) := by
      simp [Graph.find_or_add_vertex, hf]
    rw [e1]
    exact ⟨hwf, hf, find_vertex_lt hwf hf, le_refl _, fun lab' m hm => hm, rfl⟩
  | none =>
    have hall := find_vertex_none_all hf
    obtain ⟨hlen, hlt, hfst, hsnd, hedge⟩ := hwf
    have hflt : g.node_labels.filter
        (fun p => decide (p.1 ≠ g.node_data.length) && decide (p.2 ≠ lab)) =
        g.node_labels := by
      apply List.filter_eq_self.mpr
      intro x hx
      have h1 : x.1 ≠ g.node_data.length := Nat.ne_of_lt (hlt x hx)
      have h2 : x.2 ≠ lab := hall x hx
      simp only [Bool.and_eq_true, decide_eq_true_eq]
      exact ⟨h1, h2⟩
    have hlabels : (g.add_vertex lab).1.node_labels =
        (g.node_data.length, lab) :: g.node_labels := by
      show biInsert g.node_labels g.node_data.length lab = _
      unfold biInsert
      rw [hflt]
    have hfind : (g.add_vertex lab).1.find_vertex lab =
        some (g.add_vertex lab).2 := by
      show ((g.add_vertex lab).1.node_labels.find?
        (fun p => decide (p.2 = lab))).map (·.1) = some (g.add_vertex lab).2
      rw [hlabels]
      have hhead : List.find? (fun p => decide (p.2 = lab))
          ((g.node_data.length, lab) :: g.node_labels) =
          some (g.node_data.length, lab) :=
        List.find?_cons_of_pos _ (by simp)
      rw [hhead]
      rfl
    have e1 : g.find_or_add_vertex lab = g.add_vertex lab := by
      simp [Graph.find_or_add_vertex, hf]
    rw [e1]
    refine ⟨?_, hfind, ?_, ?_, ?_, rfl⟩
    · refine ⟨?_, ?_, ?_, ?_, ?_⟩
      · rw [hlabels]
        simp [Graph.add_vertex, hlen]
      · intro p hp
        rw [hlabels] at hp
        simp only [Graph.add_vertex, List.length_append, List.length_cons,
          List.length_nil]
        rcases List.mem_cons.mp hp with e | m
        · simp [e]
        · have := hlt p m
          omega
      · rw [hlabels]
        simp only [List.map_cons, List.nodup_cons]
        refine ⟨?_, hfst⟩
        intro hmem
        obtain ⟨p, hp, hp1⟩ := List.mem_map.mp hmem
        have := hlt p hp
        omega
      · rw [hlabels]
        simp only [List.map_cons, List.nodup_cons]
        refine ⟨?_, hsnd⟩
        intro hmem
        obtain ⟨p, hp, hp2⟩ := List.mem_map.mp hmem
        exact hall p hp hp2
      · intro d hd c hc
        simp only [Graph.add_vertex, List.length_append, List.length_cons,
          List.length_nil]
        simp only [Graph.add_vertex] at hd
        rcases List.mem_append.mp hd with hm | hm
        · have := hedge d hm c hc
          omega
        · simp at hm
          rw [hm] at hc
          simp at hc
    · rw [hlabels]
      simp only [List.length_cons]
      show g.node_data.length < g.node_labels.length + 1
      omega
    · rw [hlabels]
      simp
    · intro lab' n hm
      have hne : ¬ lab = lab' := by
        intro e
        rw [e] at hf
        rw [hf] at hm
        cases hm
      show ((g.add_vertex lab).1.node_labels.find?
        (fun p => decide (p.2 = lab'))).map (·.1) = some n
      rw [hlabels]
      have hhead : List.find? (fun p => decide (p.2 = lab'))
          ((g.node_data.length, lab) :: g.node_labels) =
          List.find? (fun p => decide (p.2 = lab')) g.node_labels :=
        List.find?_cons_of_neg _ (by simp [hne])
      rw [hhead]
      exact hm

lemma getD_mem_of_lt {l : List NodeData} {n : Nat} (h : n < l.length) :
    l.getD n ⟨[], []⟩ ∈ l := by
  rw [List.getD_eq_getElem l _ h]
  exact List.getElem_mem h

lemma add_edge_spec (g : Graph) (e : Nat × Nat) (lbl : String) (hwf : g.WF)
    (h1 : e.1 < g.node_labels.length) (h2 : e.2 < g.node_labels.length) :
    (g.add_edge e lbl).WF ∧
    (g.add_edge e lbl).node_labels = g.node_labels ∧
    (g.add_edge e lbl).edge_labels =
      (e, lbl) :: g.edge_labels.filter (fun p => decide (p.1 ≠ e)) := by
  obtain ⟨hlen, hlt, hfst, hsnd, hedge⟩ := hwf
  have hguard : e.1 < g.node_labels.length ∧ e.2 < g.node_labels.length :=
    ⟨h1, h2⟩
  have h1d : e.1 < g.node_data.length := by omega
  have h2d : e.2 < g.node_data.length := by omega
  refine ⟨?_, by simp [Graph.add_edge, if_pos hguard],
    by simp [Graph.add_edge, if_pos hguard]⟩
  simp only [Graph.add_edge, if_pos hguard]
  refine ⟨?_, ?_, hfst, hsnd, ?_⟩
  · simpa using hlen
  · simpa using hlt
  intro d hd c hc
  simp only [List.length_set]
  have h2d1 : e.2 < (g.node_data.set e.1
      { g.node_data.getD e.1 ⟨[], []⟩ with
        outgoing := (g.node_data.getD e.1 ⟨[], []⟩).outgoing ++ [e.2] }).length := by
    simpa using h2d
  rcases List.mem_or_eq_of_mem_set hd with hd1 | hd1
  · rcases List.mem_or_eq_of_mem_set hd1 with hd2 | hd2
    · exact hedge d hd2 c hc
    · rw [hd2] at hc
      simp only at hc
      rcases List.mem_append.mp hc with hcm | hcm
      · exact hedge _ (getD_mem_of_lt h1d) c hcm
      · simp at hcm
        omega
  · rw [hd1] at hc
    simp only at hc
    rcases List.mem_or_eq_of_mem_set (getD_mem_of_lt h2d1) with hm | hm
    · exact hedge _ hm c hc
    · rw [hm] at hc
      simp only at hc
      rcases List.mem_append.mp hc with hcm | hcm
      · exact hedge _ (getD_mem_of_lt h1d) c hcm
      · simp at hcm
        omega

/-! ## C4: edge label overwrite -/

/-- Claim C4: adding `add(A, x, B)` and then `add(A, y, B)` leaves exactly
one labelled edge for the pair `(index of A, index of B)`, carrying the
most recently added label `y`. -/
theorem add_twice_overwrites_label (g : Graph) (A B : Identity) (x y : String)
    (hwf : g.WF) :
    ∃ iA iB,
      ((g.add A x B).add A y B).find_vertex A = some iA ∧
      ((g.add A x B).add A y B).find_vertex B = some iB ∧
      ((g.add A x B).add A y B).get_edge_label (iA, iB) = some y ∧
      (((g.add A x B).add A y B).edge_labels.filter
        (fun p => decide (p.1 = (iA, iB)))).length = 1 := by
  obtain ⟨hwfA, hfA, hAlt, -, -, -⟩ := find_or_add_spec g A hwf
  obtain ⟨hwfB, hfB, hBlt, hmono, hpres, -⟩ :=
    find_or_add_spec (g.find_or_add_vertex A).1 B hwfA
  set gB : Graph := ((g.find_or_add_vertex A).1.find_or_add_vertex B).1 with hgB
  set iA : Nat := (g.find_or_add_vertex A).2 with hiA
  set iB : Nat := ((g.find_or_add_vertex A).1.find_or_add_vertex B).2 with hiB
  have hfA' : gB.find_vertex A = some iA := hpres A iA hfA
  have hiAlt : iA < gB.node_labels.length := lt_of_lt_of_le hAlt hmono
  obtain ⟨hwf1, hlab1, hedg1⟩ := add_edge_spec gB (iA, iB) x hwfB hiAlt hBlt
  set g1 : Graph := gB.add_edge (iA, iB) x with hg1
  have hdef1 : g.add A x B = g1 := rfl
  have hfA1 : g1.find_vertex A = some iA := by
    rw [find_vertex_of_labels_eq hlab1]
    exact hfA'
  have hfB1 : g1.find_vertex B = some iB := by
    rw [find_vertex_of_labels_eq hlab1]
    exact hfB
  have hfo1 : g1.find_or_add_vertex A = (g1, iA) := by
    simp [Graph.find_or_add_vertex, hfA1]
  have hfo2 : g1.find_or_add_vertex B = (g1, iB) := by
    simp [Graph.find_or_add_vertex, hfB1]
  have hiAlt1 : iA < g1.node_labels.length := by
    rw [hlab1]
    exact hiAlt
  have hiBlt1 : iB < g1.node_labels.length := by
    rw [hlab1]
    exact hBlt
  obtain ⟨hwf2, hlab2, hedg2⟩ := add_edge_spec g1 (iA, iB) y hwf1 hiAlt1 hiBlt1
  have hdef2 : (g.add A x B).add A y B = g1.add_edge (iA, iB) y := by
    rw [hdef1]
    show (g1.find_or_add_vertex A).1.find_or_add_vertex B
        |>.1.add_edge ((g1.find_or_add_vertex A).2,
          ((g1.find_or_add_vertex A).1.find_or_add_vertex B).2) y = _
    rw [hfo1]
    show (g1.find_or_add_vertex B).1.add_edge
      (iA, (g1.find_or_add_vertex B).2) y = _
    rw [hfo2]
  refine ⟨iA, iB, ?_, ?_, ?_, ?_⟩
  · rw [hdef2, find_vertex_of_labels_eq hlab2]
    exact hfA1
  · rw [hdef2, find_vertex_of_labels_eq hlab2]
    exact hfB1
  · rw [hdef2]
    show ((g1.add_edge (iA, iB) y).edge_labels.find?
      (fun p => decide (p.1 = (iA, iB)))).map (·.2) = some y
    rw [hedg2]
    have hhead : List.find? (fun p => decide (p.1 = (iA, iB)))
        (((iA, iB), y) :: g1.edge_labels.filter
          (fun p => decide (p.1 ≠ (iA, iB)))) =
        some ((iA, iB), y) :=
      List.find?_cons_of_pos _ (by simp)
    rw [hhead]
    rfl
  · rw [hdef2, hedg2]
    rw [List.filter_cons_of_pos (by simp)]
    rw [List.filter_filter]
    have : g1.edge_labels.filter
        (fun a => decide (a.1 = (iA, iB)) && decide (a.1 ≠ (iA, iB))) = [] := by
      apply List.filter_eq_nil_iff.mpr
      intro a ha
      by_cases h : a.1 = (iA, iB) <;> simp [h]
    rw [this]
    rfl

/-- Witness for C4 on the empty graph. -/
theorem add_twice_overwrites_label_witness :
    ∃ iA iB,
      ((Graph.empty.add ("A", true) "x" ("B", true)).add
        ("A", true) "y" ("B", true)).find_vertex ("A", true) = some iA ∧
      ((Graph.empty.add ("A", true) "x" ("B", true)).add
        ("A", true) "y" ("B", true)).find_vertex ("B", true) = some iB ∧
      ((Graph.empty.add ("A", true) "x" ("B", true)).add
        ("A", true) "y" ("B", true)).get_edge_label (iA, iB) = some "y" ∧
      (((Graph.empty.add ("A", true) "x" ("B", true)).add
        ("A", true) "y" ("B", true)).edge_labels.filter
          (fun p => decide (p.1 = (iA, iB)))).length = 1 :=
  add_twice_overwrites_label Graph.empty ("A", true) ("B", true) "x" "y"
    (by decide)

/-! ## C6: root selection -/

/-- Claim C6: when a search identity is supplied and found its node is the
compilation root; otherwise the first entry of `roots()` is used; and the
run fails with `NoRootFound` exactly when neither a found search identity
nor any root exists. -/
theorem process_root_selection (g : Graph) (search : String) :
    (search.isEmpty = false → ∀ n, g.find_vertex (search, true) = some n →
      process_categories_root g search = Except.ok n) ∧
    ((search.isEmpty = true ∨ g.find_vertex (search, true) = none) →
      process_categories_root g search =
        (g.roots.head?.elim (Except.error ProcessError.noRootCategory)
          Except.ok)) ∧
    (process_categories_root g search = Except.error ProcessError.noRootCategory
      ↔ (¬(search.isEmpty = false ∧
            ∃ n, g.find_vertex (search, true) = some n)) ∧ g.roots = []) := by
  by_cases hs : search.isEmpty <;>
    cases hfv : g.find_vertex (search, true) <;>
    cases hr : g.roots <;>
    simp_all [process_categories_root, found_root]

/-- Witness for C6: on the chain graph with search `"B"` the root is `B`'s
index. -/
theorem process_root_selection_witness :
    process_categories_root chainGraph "B" = Except.ok 1 :=
  (process_root_selection chainGraph "B").1 (by decide) 1 (by decide)

/-! ## C9: extractor label fallback -/

lemma charUtf8Size_pos (c : Char) : 1 ≤ charUtf8Size c := by
  unfold charUtf8Size
  split_ifs <;> omega

lemma length_le_rustStrLen (l : List Char) : l.length ≤ rustStrLen l := by
  induction l with
  | nil => simp [rustStrLen]
  | cons c t ih =>
    have := charUtf8Size_pos c
    simp only [rustStrLen, List.map_cons, List.sum_cons, List.length_cons]
    simp only [rustStrLen] at ih
    omega

/-- Counterexample to claim C9 as stated: the flattened-and-trimmed anchor
text `"§"` consists of a single character that is not alphanumeric, yet the
edge label stays `"§"` instead of the document's own name, because the code
compares the *byte* length (2 for `'§'`) against 1. -/
theorem category_label_fallback_cex :
    (trimWs ['§']).length = 1 ∧
    (∀ c ∈ trimWs ['§'], c.isAlphanum = false) ∧
    categoryEdgeLabel ['D'] ['§'] = ['§'] ∧ ['§'] ≠ ['D'] := by
  decide

/-- Claim C9, amended: the fallback to the document's own name happens when
the trimmed anchor text is empty or is a single character that is both
non-alphanumeric and ASCII (one byte); a single non-ASCII character, or two
or more characters, are kept as the label. -/
theorem category_label_fallback_amended (site s : List Char) :
    (trimWs s = [] → categoryEdgeLabel site s = site) ∧
    (∀ c, trimWs s = [c] → c.toNat < 0x80 → ¬ c.isAlphanum →
      categoryEdgeLabel site s = site) ∧
    (∀ c, trimWs s = [c] → c.isAlphanum → categoryEdgeLabel site s = trimWs s) ∧
    (∀ c, trimWs s = [c] → 0x80 ≤ c.toNat → categoryEdgeLabel site s = trimWs s) ∧
    (2 ≤ (trimWs s).length → categoryEdgeLabel site s = trimWs s) := by
  refine ⟨?_, ?_, ?_, ?_, ?_⟩
  · intro h
    simp [categoryEdgeLabel, h]
  · intro c h hascii halnum
    have hsize : charUtf8Size c = 1 := by
      simp [charUtf8Size, hascii]
    simp [categoryEdgeLabel, h, rustStrLen, hsize, halnum]
  · intro c h halnum
    simp [categoryEdgeLabel, h, halnum]
  · intro c h hge
    have hsize : charUtf8Size c ≠ 1 := by
      unfold charUtf8Size
      split_ifs <;> omega
    simp [categoryEdgeLabel, h, rustStrLen, hsize]
  · intro h
    have hne : trimWs s ≠ [] := by
      intro e
      rw [e] at h
      simp at h
    have hlen : rustStrLen (trimWs s) ≠ 1 := by
      have := length_le_rustStrLen (trimWs s)
      omega
    simp [categoryEdgeLabel, hlen, hne]

/-- Witness for C9's amended theorem: a single `'#'` falls back to the
document name. -/
theorem category_label_fallback_amended_witness :
    categoryEdgeLabel ['D'] ['#'] = ['D'] :=
  (category_label_fallback_amended ['D'] ['#']).2.1 '#' (by decide)
    (by decide) (by decide)

/-! ## C3: the normalizer -/

lemma asciiLower_colon_inv {c : Char} (h : asciiLower c = ':') : c = ':' := by
  unfold asciiLower at h
  split_ifs at h with hc
  · exfalso
    have hv1 : 65 ≤ c.val.toNat := hc.1
    have hv2 : c.val.toNat ≤ 90 := hc.2
    have hb : c.toNat = c.val.toNat := rfl
    have hb2 : c.val.toNat = c.val.toBitVec.toNat := rfl
    have hval : (c.toNat + 32).isValidChar := Or.inl (by omega)
    have h2 := congrArg Char.toNat h
    rw [Char.ofNat, dif_pos hval] at h2
    simp [Char.ofNatAux, Char.toNat, UInt32.toNat, BitVec.toNat_ofNatLt,
      UInt32.size] at h2
    omega
  · exact h

lemma foldEq_colon_inv {c : Char} (h : foldEq ':' c = true) : c = ':' := by
  simp only [foldEq, Bool.or_eq_true, Bool.and_eq_true, decide_eq_true_eq] at h
  rcases h with h | ⟨h1, h2⟩
  · exact asciiLower_colon_inv h
  · exact absurd h1 (by decide)

lemma foldEq_ne_colon {q c : Char} (hq : q ≠ ':') (h : foldEq q c = true) :
    ¬ c = ':' := by
  intro e
  subst e
  simp only [foldEq, Bool.or_eq_true, Bool.and_eq_true, decide_eq_true_eq] at h
  rcases h with h | ⟨h1, h2⟩
  · apply hq
    rw [← h]
    decide
  · exact absurd h2 (by decide)

lemma findIdx_colon_of_ns (p : List Char) :
    ∀ l : List Char, (':' : Char) ∉ p →
    listMatchCI (p ++ [':']) l = true →
    l.findIdx (fun c => decide (c = ':')) = p.length := by
  induction p with
  | nil =>
    intro l _ h
    cases l with
    | nil => simp [listMatchCI] at h
    | cons c rest =>
      simp only [List.nil_append, listMatchCI, Bool.and_eq_true] at h
      have hc : c = ':' := foldEq_colon_inv h.1
      rw [List.findIdx_cons]
      simp [hc]
  | cons q qs ih =>
    intro l hp h
    cases l with
    | nil => simp [listMatchCI] at h
    | cons c rest =>
      simp only [List.cons_append, listMatchCI, Bool.and_eq_true] at h
      have hq : q ≠ ':' := fun e => hp (by rw [← e]; exact List.mem_cons_self q qs)
      have hc : ¬ c = ':' := foldEq_ne_colon hq h.1
      rw [List.findIdx_cons]
      have hcd : (decide (c = ':')) = false := by simp [hc]
      rw [hcd]
      simp only [cond_false, List.length_cons]
      rw [ih rest (fun hm => hp (List.mem_cons_of_mem q hm)) h.2]

lemma strip_eq_stripNsSpec (l : List Char) :
    (if kat_match l then
      l.drop (l.findIdx (fun c => decide (c = ':')) + 1)
    else l) = stripNsSpec l := by
  by_cases h1 : listMatchCI "kategoria:".data l = true
  · have hidx : l.findIdx (fun c => decide (c = ':')) = 9 := by
      have h1' : listMatchCI ("kategoria".data ++ [':']) l = true := by
        have e : "kategoria".data ++ [':'] = "kategoria:".data := by decide
        rw [e]
        exact h1
      have := findIdx_colon_of_ns "kategoria".data l (by decide) h1'
      simpa using this
    have hk : kat_match l = true := by
      simp [kat_match, h1]
    rw [if_pos hk, hidx]
    simp [stripNsSpec, h1]
  · by_cases h2 : listMatchCI "category:".data l = true
    · have hidx : l.findIdx (fun c => decide (c = ':')) = 8 := by
        have h2' : listMatchCI ("category".data ++ [':']) l = true := by
          have e : "category".data ++ [':'] = "category:".data := by decide
          rw [e]
          exact h2
        have := findIdx_colon_of_ns "category".data l (by decide) h2'
        simpa using this
      have hk : kat_match l = true := by
        simp [kat_match, h2]
      rw [if_pos hk, hidx]
      simp [stripNsSpec, h1, h2]
    · have hk : kat_match l = false := by
        simp [kat_match, h1, h2]
      rw [if_neg (by simp [hk]), stripNsSpec, if_neg h1, if_neg h2]

lemma collapseGo_cons_ws_true {d : Char} {rest : List Char}
    (hd : wsChar d = true) :
    collapseGo true (d :: rest) = collapseGo true rest := by
  simp [collapseGo, hd]

lemma collapseGo_cons_ws_false {d : Char} {rest : List Char}
    (hd : wsChar d = true) :
    collapseGo false (d :: rest) = ' ' :: collapseGo true rest := by
  simp [collapseGo, hd]

lemma collapseGo_cons_nws {b : Bool} {d : Char} {rest : List Char}
    (hd : wsChar d = false) :
    collapseGo b (d :: rest) = d :: collapseGo false rest := by
  cases b <;> simp [collapseGo, hd]

lemma mem_of_mem_collapseGo :
    ∀ (b : Bool) (m : List Char) (c : Char), c ∈ collapseGo b m →
      c = ' ' ∨ c ∈ m := by
  intro b m
  induction m generalizing b with
  | nil => intro c h; simp [collapseGo] at h
  | cons d rest ih =>
    intro c h
    by_cases hd : wsChar d
    · cases b with
      | true =>
        rw [collapseGo_cons_ws_true hd] at h
        rcases ih true c h with h1 | h1
        · exact Or.inl h1
        · exact Or.inr (List.mem_cons_of_mem d h1)
      | false =>
        rw [collapseGo_cons_ws_false hd] at h
        rcases List.mem_cons.mp h with h1 | h1
        · exact Or.inl h1
        · rcases ih true c h1 with h2 | h2
          · exact Or.inl h2
          · exact Or.inr (List.mem_cons_of_mem d h2)
    · rw [collapseGo_cons_nws (by simpa using hd)] at h
      rcases List.mem_cons.mp h with h1 | h1
      · exact Or.inr (h1 ▸ List.mem_cons_self d rest)
      · rcases ih false c h1 with h2 | h2
        · exact Or.inl h2
        · exact Or.inr (List.mem_cons_of_mem d h2)

lemma mem_of_mem_trimWs {l : List Char} {c : Char} (h : c ∈ trimWs l) :
    c ∈ l := by
  simp only [trimWs, List.mem_reverse] at h
  have h2 := (List.dropWhile_suffix wsChar).subset h
  rw [List.mem_reverse] at h2
  exact (List.dropWhile_suffix wsChar).subset h2

lemma mem_of_mem_stripNsSpec {l : List Char} {c : Char}
    (h : c ∈ stripNsSpec l) : c ∈ l := by
  unfold stripNsSpec at h
  split_ifs at h
  · exact List.drop_subset _ l h
  · exact List.drop_subset _ l h
  · exact h

lemma filter_ltr_id {m : List Char} (h : ltrMark ∉ m) :
    m.filter (fun c => decide (c ≠ ltrMark)) = m := by
  apply List.filter_eq_self.mpr
  intro a ha
  simp only [decide_eq_true_eq]
  intro e
  exact h (e ▸ ha)

lemma head?_dropWhile_ws {m : List Char} {c : Char}
    (h : (m.dropWhile wsChar).head? = some c) : wsChar c = false := by
  have h2 := List.head?_dropWhile_not wsChar m
  rw [h] at h2
  exact h2

lemma getLast?_of_suffix {l₁ l₂ : List Char} (h : l₁ <:+ l₂) (hne : l₁ ≠ []) :
    l₁.getLast? = l₂.getLast? := by
  obtain ⟨t, rfl⟩ := h
  exact (List.getLast?_append_of_ne_nil t hne).symm

lemma trimWs_head {l : List Char} {c : Char}
    (h : (trimWs l).head? = some c) : wsChar c = false := by
  simp only [trimWs] at h
  rw [List.head?_reverse] at h
  have hne : (l.dropWhile wsChar).reverse.dropWhile wsChar ≠ [] := by
    intro e
    rw [e] at h
    cases h
  have heq := getLast?_of_suffix (List.dropWhile_suffix wsChar) hne
  rw [heq, List.getLast?_reverse] at h
  exact head?_dropWhile_ws h

lemma trimWs_getLast {l : List Char} {c : Char}
    (h : (trimWs l).getLast? = some c) : wsChar c = false := by
  simp only [trimWs] at h
  rw [List.getLast?_reverse] at h
  exact head?_dropWhile_ws h

lemma collapseGo_true_head {m : List Char} {c : Char}
    (h : (collapseGo true m).head? = some c) : wsChar c = false := by
  induction m with
  | nil => simp [collapseGo] at h
  | cons d rest ih =>
    by_cases hd : wsChar d
    · rw [collapseGo_cons_ws_true hd] at h
      exact ih h
    · rw [collapseGo_cons_nws (by simpa using hd), List.head?_cons] at h
      cases h
      simpa using hd

lemma collapseGo_false_head {m : List Char}
    (hm : ∀ d, m.head? = some d → wsChar d = false) {c : Char}
    (h : (collapseGo false m).head? = some c) : wsChar c = false := by
  cases m with
  | nil => simp [collapseGo] at h
  | cons d rest =>
    have hd := hm d (by rw [List.head?_cons])
    rw [collapseGo_cons_nws hd, List.head?_cons] at h
    cases h
    exact hd

lemma getLast?_cons_of_ne_nil {a : Char} {X : List Char} (h : X ≠ []) :
    (a :: X).getLast? = X.getLast? := by
  have e : [a] ++ X = a :: X := rfl
  rw [← e]
  exact List.getLast?_append_of_ne_nil _ h

lemma collapseGo_ne_nil {m : List Char} {x : Char} (hx : m.getLast? = some x)
    (hnw : wsChar x = false) : ∀ b, collapseGo b m ≠ [] := by
  induction m with
  | nil => cases hx
  | cons d rest ih =>
    intro b
    by_cases hrne : rest = []
    · subst hrne
      rw [List.getLast?_singleton] at hx
      cases hx
      rw [collapseGo_cons_nws hnw]
      simp
    · have hx' : rest.getLast? = some x := by
        rw [getLast?_cons_of_ne_nil hrne] at hx
        exact hx
      by_cases hd : wsChar d
      · cases b with
        | true =>
          rw [collapseGo_cons_ws_true hd]
          exact ih hx' true
        | false =>
          rw [collapseGo_cons_ws_false hd]
          simp
      · rw [collapseGo_cons_nws (by simpa using hd)]
        simp

lemma collapseGo_getLast {m : List Char}
    (hm : ∀ x, m.getLast? = some x → wsChar x = false) :
    ∀ (b : Bool) (c : Char), (collapseGo b m).getLast? = some c →
      wsChar c = false := by
  induction m with
  | nil => intro b c h; simp [collapseGo] at h
  | cons d rest ih =>
    intro b c h
    by_cases hrne : rest = []
    · subst hrne
      have hd : wsChar d = false := hm d (by rw [List.getLast?_singleton])
      rw [collapseGo_cons_nws hd] at h
      simp only [collapseGo, List.getLast?_singleton] at h
      cases h
      exact hd
    · have hmr : ∀ x, rest.getLast? = some x → wsChar x = false := by
        intro x hx
        apply hm
        rw [getLast?_cons_of_ne_nil hrne]
        exact hx
      obtain ⟨y, hy⟩ : ∃ y, rest.getLast? = some y := by
        cases hz : rest.getLast? with
        | none => exact absurd (List.getLast?_eq_none_iff.mp hz) hrne
        | some z => exact ⟨z, rfl⟩
      have hyn : wsChar y = false := hmr y hy
      have hnenil : ∀ b', collapseGo b' rest ≠ [] := collapseGo_ne_nil hy hyn
      by_cases hd : wsChar d
      · cases b with
        | true =>
          rw [collapseGo_cons_ws_true hd] at h
          exact ih hmr true c h
        | false =>
          rw [collapseGo_cons_ws_false hd,
            getLast?_cons_of_ne_nil (hnenil true)] at h
          exact ih hmr true c h
      · rw [collapseGo_cons_nws (by simpa using hd),
          getLast?_cons_of_ne_nil (hnenil false)] at h
        exact ih hmr false c h

lemma collapseGo_chain :
    ∀ (m : List Char) (b : Bool),
      List.Chain' (fun a c => wsChar a = true → wsChar c = false)
        (collapseGo b m) := by
  intro m
  induction m with
  | nil => intro b; simp [collapseGo]
  | cons d rest ih =>
    intro b
    by_cases hd : wsChar d
    · cases b with
      | true =>
        rw [collapseGo_cons_ws_true hd]
        exact ih true
      | false =>
        rw [collapseGo_cons_ws_false hd]
        rw [List.chain'_cons']
        refine ⟨?_, ih true⟩
        intro y hy _
        exact collapseGo_true_head (Option.mem_def.mp hy)
    · rw [collapseGo_cons_nws (by simpa using hd)]
      rw [List.chain'_cons']
      refine ⟨?_, ih false⟩
      intro y _ hw
      exact absurd hw hd

lemma normalize_snd (l : List Char) :
    (normalize_category_name l).2 = kat_match l := by
  by_cases hk : kat_match l = true
  · simp [normalize_category_name, hk]
  · simp only [Bool.not_eq_true] at hk
    simp [normalize_category_name, hk]

lemma normalize_fst (l : List Char) :
    (normalize_category_name l).1 =
      (collapseWs (trimWs (stripNsSpec l))).filter
        (fun c => decide (c ≠ ltrMark)) := by
  rw [← strip_eq_stripNsSpec]
  by_cases hk : kat_match l = true
  · simp [normalize_category_name, hk, collapseWs]
  · simp [normalize_category_name, hk, collapseWs]

/-- Counterexample to claim C3 as stated: on `"a␣‎␣b"` (a space on
each side of a left-to-right mark) the normalizer returns `"a␣␣b"`: the
marks are deleted only after whitespace collapsing, so the result still
contains an internal run of two spaces. -/
theorem normalize_category_name_cex :
    (normalize_category_name ['a', ' ', ltrMark, ' ', 'b']).1 =
      ['a', ' ', ' ', 'b'] ∧
    ¬ List.Chain' (fun a b => wsChar a = true → wsChar b = false)
        (normalize_category_name ['a', ' ', ltrMark, ' ', 'b']).1 := by
  refine ⟨by decide, ?_⟩
  intro h
  rw [(by decide :
    (normalize_category_name ['a', ' ', ltrMark, ' ', 'b']).1 =
      ['a', ' ', ' ', 'b'])] at h
  obtain ⟨-, h⟩ := List.chain'_cons'.mp h
  obtain ⟨hp, -⟩ := List.chain'_cons'.mp h
  have h3 := hp ' ' (by simp) (by decide)
  exact absurd h3 (by decide)

/-- Claim C3, amended: `normalize_category_name` reports whether the
case-insensitive namespace prefix matched and removes exactly that prefix;
the returned name never contains a left-to-right mark and equals the
trim-then-collapse of the stripped input with the marks deleted *last* —
hence for inputs without left-to-right marks the name is fully trimmed and
internally collapsed, while marks adjacent to whitespace may leave residual
space runs. -/
theorem normalize_category_name_amended (l : List Char) :
    ((normalize_category_name l).2 = kat_match l) ∧
    (ltrMark ∉ (normalize_category_name l).1) ∧
    ((normalize_category_name l).1 =
      (collapseWs (trimWs (stripNsSpec l))).filter
        (fun c => decide (c ≠ ltrMark))) ∧
    (ltrMark ∉ l →
      (normalize_category_name l).1 = collapseWs (trimWs (stripNsSpec l)) ∧
      (∀ c, (normalize_category_name l).1.head? = some c →
        wsChar c = false) ∧
      (∀ c, (normalize_category_name l).1.getLast? = some c →
        wsChar c = false) ∧
      List.Chain' (fun a b => wsChar a = true → wsChar b = false)
        (normalize_category_name l).1) := by
  refine ⟨normalize_snd l, ?_, normalize_fst l, ?_⟩
  · rw [normalize_fst]
    intro hm
    have := List.of_mem_filter hm
    simp at this
  · intro hltr
    have hstrip : ltrMark ∉ stripNsSpec l :=
      fun hm => hltr (mem_of_mem_stripNsSpec hm)
    have htrim : ltrMark ∉ trimWs (stripNsSpec l) :=
      fun hm => hstrip (mem_of_mem_trimWs hm)
    have hcol : ltrMark ∉ collapseWs (trimWs (stripNsSpec l)) := by
      intro hm
      rcases mem_of_mem_collapseGo false _ _ hm with he | hm2
      · exact absurd he (by decide)
      · exact htrim hm2
    have heq : (normalize_category_name l).1 =
        collapseWs (trimWs (stripNsSpec l)) := by
      rw [normalize_fst, filter_ltr_id hcol]
    refine ⟨heq, ?_, ?_, ?_⟩
    · intro c hc
      rw [heq] at hc
      exact collapseGo_false_head
        (fun d hd => trimWs_head hd) hc
    · intro c hc
      rw [heq] at hc
      exact collapseGo_getLast (fun x hx => trimWs_getLast hx) false c hc
    · rw [heq]
      exact collapseGo_chain _ false

/-- Witness for C3's amended theorem on `kelvinTitle`, whose namespace
selector matches only through Unicode simple case folding (it starts with
U+212A KELVIN SIGN in place of `K`). -/
theorem normalize_category_name_amended_witness :
    ((normalize_category_name kelvinTitle).2 = kat_match kelvinTitle) ∧
    ((normalize_category_name kelvinTitle).1 =
       collapseWs (trimWs (stripNsSpec kelvinTitle)) ∧
     (∀ c, (normalize_category_name kelvinTitle).1.head? = some c →
       wsChar c = false) ∧
     (∀ c, (normalize_category_name kelvinTitle).1.getLast? = some c →
       wsChar c = false) ∧
     List.Chain' (fun a b => wsChar a = true → wsChar b = false)
       (normalize_category_name kelvinTitle).1) :=
  ⟨(normalize_category_name_amended kelvinTitle).1,
   (normalize_category_name_amended kelvinTitle).2.2.2 (by decide)⟩

/-! ## Walk: cuts-map lemmas -/

lemma find?_map_key_pres {α : Type} (f : α → α) (p : α → Bool)
    (hf : ∀ x, p (f x) = p x) (l : List α) :
    (l.map f).find? p = (l.find? p).map f := by
  induction l with
  | nil => rfl
  | cons a t ih =>
    by_cases pa : p a
    · rw [List.map_cons, List.find?_cons_of_pos _ (by rw [hf]; exact pa),
        List.find?_cons_of_pos _ pa]
      rfl
    · rw [List.map_cons,
        List.find?_cons_of_neg _ (by rw [hf]; simpa using pa),
        List.find?_cons_of_neg _ (by simpa using pa)]
      exact ih

lemma cutsOf_cutsAdd_self (cuts : List (Nat × List Nat)) (n c : Nat) :
    cutsOf (cutsAdd cuts n c) n = cutsOf cuts n ++ [c] := by
  unfold cutsAdd
  cases hf : cuts.find? (fun p => decide (p.1 = n)) with
  | none =>
    unfold cutsOf
    rw [List.find?_cons_of_pos _ (by simp), hf]
    rfl
  | some q =>
    have hq : q.1 = n := by simpa using List.find?_some hf
    unfold cutsOf
    rw [find?_map_key_pres _ _ (fun x => by by_cases hx : x.1 = n <;> simp [hx]),
      hf]
    simp [hq]

lemma cutsOf_cutsAdd_ne (cuts : List (Nat × List Nat)) {m n : Nat} (c : Nat)
    (hmn : m ≠ n) :
    cutsOf (cutsAdd cuts n c) m = cutsOf cuts m := by
  unfold cutsAdd
  cases hf : cuts.find? (fun p => decide (p.1 = n)) with
  | none =>
    unfold cutsOf
    rw [List.find?_cons_of_neg _ (by simp [Ne.symm hmn])]
  | some q =>
    unfold cutsOf
    rw [find?_map_key_pres _ _ (fun x => by by_cases hx : x.1 = n <;> simp [hx])]
    cases hf2 : cuts.find? (fun p => decide (p.1 = m)) with
    | none => rfl
    | some r =>
      have hr : r.1 = m := by simpa using List.find?_some hf2
      have : ¬ r.1 = n := by rw [hr]; exact hmn
      simp [this]

lemma mem_cutsOf_cutsAdd {cuts : List (Nat × List Nat)} {m n c x : Nat}
    (h : x ∈ cutsOf cuts m) : x ∈ cutsOf (cutsAdd cuts n c) m := by
  by_cases hmn : m = n
  · subst hmn
    rw [cutsOf_cutsAdd_self]
    exact List.mem_append_left _ h
  · rw [cutsOf_cutsAdd_ne cuts c hmn]
    exact h

lemma mem_cutsOf_cutsAdd_elim {cuts : List (Nat × List Nat)} {m n c x : Nat}
    (h : x ∈ cutsOf (cutsAdd cuts n c) m) :
    x ∈ cutsOf cuts m ∨ (m = n ∧ x = c) := by
  by_cases hmn : m = n
  · subst hmn
    rw [cutsOf_cutsAdd_self] at h
    rcases List.mem_append.mp h with h1 | h1
    · exact Or.inl h1
    · simp at h1
      exact Or.inr ⟨rfl, h1⟩
  · rw [cutsOf_cutsAdd_ne cuts c hmn] at h
    exact Or.inl h

/-! ## Walk: StackInv transfer -/

lemma frameOk_mono {g : Graph} {cuts cuts' : List (Nat × List Nat)}
    {orderN orderN' above above' : List Nat} {fr : Nat × Nat}
    (h : FrameOk g cuts orderN above fr)
    (hcuts : ∀ n c, c ∈ cutsOf cuts n → c ∈ cutsOf cuts' n)
    (hord : ∀ c ∈ orderN, c ∈ orderN')
    (habv : ∀ c ∈ above, c ∈ above' ∨ c ∈ orderN') :
    FrameOk g cuts' orderN' above' fr := by
  intro k hk c hc
  rcases h k hk c hc with h1 | h1 | h1
  · exact Or.inl (hcuts _ _ h1)
  · exact Or.inr (Or.inl (hord _ h1))
  · rcases habv _ h1 with h2 | h2
    · exact Or.inr (Or.inr h2)
    · exact Or.inr (Or.inl h2)

lemma stackInv_mono {g : Graph} {cuts cuts' : List (Nat × List Nat)}
    {orderN orderN' : List Nat} :
    ∀ {above above' : List Nat} {l : List (Nat × Nat)},
    StackInv g cuts orderN above l →
    (∀ n c, c ∈ cutsOf cuts n → c ∈ cutsOf cuts' n) →
    (∀ c ∈ orderN, c ∈ orderN') →
    (∀ c ∈ above, c ∈ above' ∨ c ∈ orderN') →
    StackInv g cuts' orderN' above' l := by
  intro above above' l
  induction l generalizing above above' with
  | nil => intro _ _ _ _; trivial
  | cons fr rest ih =>
    intro h hcuts hord habv
    refine ⟨frameOk_mono h.1 hcuts hord habv, ?_⟩
    refine ih h.2 hcuts hord ?_
    intro c hc
    rcases List.mem_cons.mp hc with h1 | h1
    · exact Or.inl (h1 ▸ List.mem_cons_self fr.1 above')
    · rcases habv c h1 with h2 | h2
      · exact Or.inl (List.mem_cons_of_mem _ h2)
      · exact Or.inr h2

/-! ## Walk: step reduction equations -/

lemma walkStep_nil {E : Type} (g : Graph) (f : Nat → List Nat → Except E Unit)
    (vis pth : Finset Nat) (cts ord : List (Nat × List Nat)) :
    walkStep g f ⟨vis, [], pth, cts, ord⟩ =
      StepRes.done ⟨vis, [], pth, cts, ord⟩ := rfl

lemma walkStep_cons_lt {E : Type} (g : Graph)
    (f : Nat → List Nat → Except E Unit) (vis pth : Finset Nat)
    (cts ord : List (Nat × List Nat)) (node cv : Nat)
    (rest : List (Nat × Nat)) (hc : cv < (g.outgoing node).length) :
    walkStep g f ⟨vis, (node, cv) :: rest, pth, cts, ord⟩ =
      StepRes.cont ⟨insert node vis,
        (if (g.outgoing node).get ⟨cv, hc⟩ ∈ insert node vis then
          (node, cv + 1) :: rest
        else ((g.outgoing node).get ⟨cv, hc⟩, 0) :: (node, cv + 1) :: rest),
        insert node pth,
        (if (g.outgoing node).get ⟨cv, hc⟩ ∈ insert node pth then
          cutsAdd cts node ((g.outgoing node).get ⟨cv, hc⟩)
        else cts),
        ord⟩ := by
  simp only [walkStep]
  rw [dif_pos hc]

lemma walkStep_cons_ge_ok {E : Type} (g : Graph)
    (f : Nat → List Nat → Except E Unit) (vis pth : Finset Nat)
    (cts ord : List (Nat × List Nat)) (node cv : Nat)
    (rest : List (Nat × Nat)) (hc : ¬ cv < (g.outgoing node).length)
    (hf : f node (cutsOf cts node) = Except.ok ()) :
    walkStep g f ⟨vis, (node, cv) :: rest, pth, cts, ord⟩ =
      StepRes.cont ⟨insert node vis, rest, (insert node pth).erase node,
        cts, ord ++ [(node, cutsOf cts node)]⟩ := by
  simp only [walkStep]
  rw [dif_neg hc, hf]

lemma walkStep_cons_ge_err {E : Type} (g : Graph)
    (f : Nat → List Nat → Except E Unit) (vis pth : Finset Nat)
    (cts ord : List (Nat × List Nat)) (node cv : Nat)
    (rest : List (Nat × Nat)) (hc : ¬ cv < (g.outgoing node).length)
    (e : E) (hf : f node (cutsOf cts node) = Except.error e) :
    walkStep g f ⟨vis, (node, cv) :: rest, pth, cts, ord⟩ =
      StepRes.fail e ⟨insert node vis, rest, insert node pth,
        cts, ord ++ [(node, cutsOf cts node)]⟩ := by
  simp only [walkStep]
  rw [dif_neg hc, hf]

/-! ## Walk: invariant preservation -/

lemma outgoing_lt {g : Graph} (hwf : g.WF) {n : Nat} (hn : n < g.len) {c : Nat}
    (hc : c ∈ g.outgoing n) : c < g.len := by
  obtain ⟨-, -, -, -, hedge⟩ := hwf
  exact hedge _ (getD_mem_of_lt hn) c hc

lemma walkInv_nonpush {g : Graph} {start : Nat} {vis pth : Finset Nat}
    {cts cuts' ord : List (Nat × List Nat)} {node cv : Nat}
    {rest : List (Nat × Nat)}
    (hinv : WalkInv g start ⟨vis, (node, cv) :: rest, pth, cts, ord⟩)
    (hc : cv < (g.outgoing node).length)
    (hmono : ∀ n c, c ∈ cutsOf cts n → c ∈ cutsOf cuts' n)
    (hnewvis : ∀ n c, c ∈ cutsOf cuts' n → c ∈ insert node vis)
    (hchild : (g.outgoing node).get ⟨cv, hc⟩ ∈ cutsOf cuts' node ∨
      (g.outgoing node).get ⟨cv, hc⟩ ∈ ord.map Prod.fst) :
    WalkInv g start
      ⟨insert node vis, (node, cv + 1) :: rest, insert node pth, cuts', ord⟩ := by
  have hhead : (node, cv) ∈ (node, cv) :: rest := List.mem_cons_self _ _
  have hnode_lt : node < g.len := hinv.stack_lt _ hhead
  have hnode_reach : Reachable g start node := hinv.reach_stack _ hhead
  refine ⟨?_, ?_, ?_, ?_, ?_, ?_, ?_, ?_, ?_, ?_, ?_, ?_, ?_, ?_, ?_, ?_⟩
  · exact hinv.nodup_stack
  · intro fr hfr
    exact Finset.mem_insert_of_mem (hinv.tail_visited fr hfr)
  · intro fr hfr
    rcases List.mem_cons.mp hfr with h1 | h1
    · rw [h1]
      exact hnode_lt
    · exact hinv.stack_lt fr (List.mem_cons_of_mem _ h1)
  · intro fr hfr
    rcases List.mem_cons.mp hfr with h1 | h1
    · rw [h1]
      simpa using hc
    · exact hinv.stack_cv fr (List.mem_cons_of_mem _ h1)
  · intro n hn
    rcases Finset.mem_insert.mp hn with h1 | h1
    · rw [h1]
      exact hnode_lt
    · exact hinv.visited_lt n h1
  · intro n
    simp only [Finset.mem_insert, List.map_cons, List.mem_cons]
    have hold := hinv.path_iff n
    simp only [List.map_cons, List.mem_cons] at hold
    rw [hold]
    tauto
  · intro n
    simp only [Finset.mem_insert]
    have hold := hinv.visited_iff n
    rw [hold]
    simp only [Finset.mem_insert]
    tauto
  · exact hinv.nodup_order
  · intro n hn
    exact hinv.order_stack_disj n hn
  · intro fr hfr
    rcases List.mem_cons.mp hfr with h1 | h1
    · rw [h1]
      exact hnode_reach
    · exact hinv.reach_stack fr (List.mem_cons_of_mem _ h1)
  · intro n hn
    rcases Finset.mem_insert.mp hn with h1 | h1
    · rw [h1]
      exact hnode_reach
    · exact hinv.reach_visited n h1
  · rcases hinv.start_mem with h1 | h1
    · exact Or.inl (Finset.mem_insert_of_mem h1)
    · exact Or.inr h1
  · intro n c hcc
    exact hnewvis n c hcc
  · intro p hp c hcout
    exact Finset.mem_insert_of_mem (hinv.order_children p hp c hcout)
  · exact hinv.post_ordered
  · obtain ⟨hfr, hrest⟩ := hinv.stack_inv
    refine ⟨?_, ?_⟩
    · intro k hk c hcget
      by_cases hkc : k < cv
      · rcases hfr k hkc c hcget with h1 | h1 | h1
        · exact Or.inl (hmono _ _ h1)
        · exact Or.inr (Or.inl h1)
        · exact absurd h1 (List.not_mem_nil c)
      · have hkcv : k = cv := by omega
        subst hkcv
        rw [List.get?_eq_get hc] at hcget
        cases hcget
        rcases hchild with h1 | h1
        · exact Or.inl h1
        · exact Or.inr (Or.inl h1)
    · exact stackInv_mono hrest hmono (fun c h => h) (fun c h => Or.inl h)

lemma walkInv_push {g : Graph} {start : Nat} {vis pth : Finset Nat}
    {cts ord : List (Nat × List Nat)} {node cv : Nat}
    {rest : List (Nat × Nat)} (hwf : g.WF)
    (hinv : WalkInv g start ⟨vis, (node, cv) :: rest, pth, cts, ord⟩)
    (hc : cv < (g.outgoing node).length)
    (hvis : (g.outgoing node).get ⟨cv, hc⟩ ∉ insert node vis) :
    WalkInv g start
      ⟨insert node vis,
        ((g.outgoing node).get ⟨cv, hc⟩, 0) :: (node, cv + 1) :: rest,
        insert node pth, cts, ord⟩ := by
  set child := (g.outgoing node).get ⟨cv, hc⟩ with hchild_def
  have hhead : (node, cv) ∈ (node, cv) :: rest := List.mem_cons_self _ _
  have hnode_lt : node < g.len := hinv.stack_lt _ hhead
  have hnode_reach : Reachable g start node := hinv.reach_stack _ hhead
  have hch_out : child ∈ g.outgoing node := by
    rw [hchild_def]
    exact List.get_mem _ _ _
  have hchne : child ≠ node := fun e => hvis (e ▸ Finset.mem_insert_self node vis)
  have hchnvis : child ∉ vis := fun h => hvis (Finset.mem_insert_of_mem h)
  have hchnrest : child ∉ rest.map Prod.fst := by
    intro hm
    obtain ⟨fr, hfr, hfr1⟩ := List.mem_map.mp hm
    exact hchnvis (hfr1 ▸ hinv.tail_visited fr hfr)
  have hch_lt : child < g.len := outgoing_lt hwf hnode_lt hch_out
  have hch_reach : Reachable g start child :=
    Relation.ReflTransGen.tail hnode_reach hch_out
  have hch_nord : child ∉ ord.map Prod.fst :=
    fun h => hchnvis ((hinv.visited_iff child).mpr (Or.inl h))
  refine ⟨?_, ?_, ?_, ?_, ?_, ?_, ?_, ?_, ?_, ?_, ?_, ?_, ?_, ?_, ?_, ?_⟩
  · simp only [List.map_cons, List.nodup_cons]
    have hold := hinv.nodup_stack
    simp only [List.map_cons, List.nodup_cons] at hold
    refine ⟨?_, hold⟩
    simp only [List.mem_cons]
    push_neg
    exact ⟨hchne, hchnrest⟩
  · intro fr hfr
    rcases List.mem_cons.mp hfr with h1 | h1
    · rw [h1]
      exact Finset.mem_insert_self node vis
    · exact Finset.mem_insert_of_mem (hinv.tail_visited fr h1)
  · intro fr hfr
    rcases List.mem_cons.mp hfr with h1 | h1
    · rw [h1]
      exact hch_lt
    · rcases List.mem_cons.mp h1 with h2 | h2
      · rw [h2]
        exact hnode_lt
      · exact hinv.stack_lt fr (List.mem_cons_of_mem _ h2)
  · intro fr hfr
    rcases List.mem_cons.mp hfr with h1 | h1
    · rw [h1]
      exact Nat.zero_le _
    · rcases List.mem_cons.mp h1 with h2 | h2
      · rw [h2]
        simpa using hc
      · exact hinv.stack_cv fr (List.mem_cons_of_mem _ h2)
  · intro n hn
    rcases Finset.mem_insert.mp hn with h1 | h1
    · rw [h1]
      exact hnode_lt
    · exact hinv.visited_lt n h1
  · intro n
    simp only [Finset.mem_insert, List.map_cons, List.mem_cons]
    have hold := hinv.path_iff n
    simp only [List.map_cons, List.mem_cons] at hold
    by_cases hnch : n = child
    · subst hnch
      have hnp : child ∉ pth := fun h => hchnvis (hold.mp h).2
      simp [hchne, hchnvis, hnp]
    · rw [hold]
      tauto
  · intro n
    simp only [Finset.mem_insert]
    have hold := hinv.visited_iff n
    rw [hold]
    simp only [Finset.mem_insert]
    tauto
  · exact hinv.nodup_order
  · intro n hn
    have holddisj := hinv.order_stack_disj n hn
    simp only [List.map_cons, List.mem_cons] at holddisj
    push_neg at holddisj
    simp only [List.map_cons, List.mem_cons]
    push_neg
    exact ⟨fun e => hch_nord (e ▸ hn), holddisj.1, holddisj.2⟩
  · intro fr hfr
    rcases List.mem_cons.mp hfr with h1 | h1
    · rw [h1]
      exact hch_reach
    · rcases List.mem_cons.mp h1 with h2 | h2
      · rw [h2]
        exact hnode_reach
      · exact hinv.reach_stack fr (List.mem_cons_of_mem _ h2)
  · intro n hn
    rcases Finset.mem_insert.mp hn with h1 | h1
    · rw [h1]
      exact hnode_reach
    · exact hinv.reach_visited n h1
  · rcases hinv.start_mem with h1 | h1
    · exact Or.inl (Finset.mem_insert_of_mem h1)
    · refine Or.inr ?_
      simp only [List.map_cons, List.mem_cons]
      simp only [List.map_cons, List.mem_cons] at h1
      tauto
  · intro n c hcc
    exact Finset.mem_insert_of_mem (hinv.cuts_visited n c hcc)
  · intro p hp c hcout
    exact Finset.mem_insert_of_mem (hinv.order_children p hp c hcout)
  · exact hinv.post_ordered
  · obtain ⟨hfr, hrest⟩ := hinv.stack_inv
    refine ⟨?_, ?_, ?_⟩
    · intro k hk c hcget
      exact absurd hk (Nat.not_lt_zero k)
    · intro k hk c hcget
      by_cases hkc : k < cv
      · rcases hfr k hkc c hcget with h1 | h1 | h1
        · exact Or.inl h1
        · exact Or.inr (Or.inl h1)
        · exact absurd h1 (List.not_mem_nil c)
      · have hkcv : k = cv := by omega
        subst hkcv
        rw [List.get?_eq_get hc] at hcget
        cases hcget
        exact Or.inr (Or.inr (List.mem_cons_self _ _))
    · refine stackInv_mono hrest (fun n c h => h) (fun c h => h) ?_
      intro c hcm
      rcases List.mem_cons.mp hcm with h1 | h1
      · rw [h1]
        exact Or.inl (List.mem_cons_self _ _)
      · exact absurd h1 (List.not_mem_nil c)

lemma walkInv_post {g : Graph} {start : Nat} {vis pth : Finset Nat}
    {cts ord : List (Nat × List Nat)} {node cv : Nat}
    {rest : List (Nat × Nat)}
    (hinv : WalkInv g start ⟨vis, (node, cv) :: rest, pth, cts, ord⟩)
    (hc : ¬ cv < (g.outgoing node).length) :
    WalkInv g start
      ⟨insert node vis, rest, (insert node pth).erase node, cts,
        ord ++ [(node, cutsOf cts node)]⟩ := by
  have hhead : (node, cv) ∈ (node, cv) :: rest := List.mem_cons_self _ _
  have hnode_lt : node < g.len := hinv.stack_lt _ hhead
  have hnode_reach : Reachable g start node := hinv.reach_stack _ hhead
  have hnodrest : node ∉ rest.map Prod.fst := by
    have hold := hinv.nodup_stack
    simp only [List.map_cons, List.nodup_cons] at hold
    exact hold.1
  have hnord : node ∉ ord.map Prod.fst := by
    intro h
    exact hinv.order_stack_disj node h (by simp)
  obtain ⟨hfr, hrest⟩ := hinv.stack_inv
  have hall_children : ∀ c ∈ g.outgoing node,
      c ∈ cutsOf cts node ∨ c ∈ ord.map Prod.fst := by
    intro c hcmem
    obtain ⟨k, hget⟩ := List.mem_iff_get?.mp hcmem
    have hklen : k < (g.outgoing node).length := by
      obtain ⟨hlt, -⟩ := List.get?_eq_some.mp hget
      exact hlt
    rcases hfr k (by omega) c hget with h1 | h1 | h1
    · exact Or.inl h1
    · exact Or.inr h1
    · exact absurd h1 (List.not_mem_nil c)
  refine ⟨?_, ?_, ?_, ?_, ?_, ?_, ?_, ?_, ?_, ?_, ?_, ?_, ?_, ?_, ?_, ?_⟩
  · have hold := hinv.nodup_stack
    simp only [List.map_cons, List.nodup_cons] at hold
    exact hold.2
  · intro fr hfr2
    have : fr ∈ rest := List.mem_of_mem_tail hfr2
    have h2 : fr ∈ ((node, cv) :: rest).tail := this
    exact Finset.mem_insert_of_mem (hinv.tail_visited fr h2)
  · intro fr hfr2
    exact hinv.stack_lt fr (List.mem_cons_of_mem _ hfr2)
  · intro fr hfr2
    exact hinv.stack_cv fr (List.mem_cons_of_mem _ hfr2)
  · intro n hn
    rcases Finset.mem_insert.mp hn with h1 | h1
    · rw [h1]
      exact hnode_lt
    · exact hinv.visited_lt n h1
  · intro n
    simp only [Finset.mem_erase, Finset.mem_insert]
    have hold := hinv.path_iff n
    simp only [List.map_cons, List.mem_cons] at hold
    by_cases hn : n = node
    · subst hn
      constructor
      · intro h
        exact absurd rfl h.1
      · intro h
        exact absurd h.1 hnodrest
    · rw [hold]
      tauto
  · intro n
    simp only [Finset.mem_insert, List.map_append, List.map_cons, List.map_nil,
      List.mem_append, List.mem_cons, List.mem_singleton, Finset.mem_erase]
    have hold := hinv.visited_iff n
    rw [hold]
    simp only [Finset.mem_insert]
    have holdp := hinv.path_iff n
    simp only [List.map_cons, List.mem_cons] at holdp
    by_cases hn : n = node
    · subst hn
      simp
    · rw [holdp]
      tauto
  · simp only [List.map_append, List.map_cons, List.map_nil]
    rw [List.nodup_append]
    refine ⟨hinv.nodup_order, by simp, ?_⟩
    intro a ha hb
    simp only [List.mem_cons, List.not_mem_nil, or_false] at hb
    exact hnord (hb ▸ ha)
  · intro n hn
    simp only [List.map_append, List.map_cons, List.map_nil,
      List.mem_append, List.mem_cons, List.not_mem_nil, or_false] at hn
    rcases hn with h1 | h1
    · have := hinv.order_stack_disj n h1
      simp only [List.map_cons, List.mem_cons] at this
      push_neg at this
      exact this.2
    · rw [h1]
      exact hnodrest
  · intro fr hfr2
    exact hinv.reach_stack fr (List.mem_cons_of_mem _ hfr2)
  · intro n hn
    rcases Finset.mem_insert.mp hn with h1 | h1
    · rw [h1]
      exact hnode_reach
    · exact hinv.reach_visited n h1
  · rcases hinv.start_mem with h1 | h1
    · exact Or.inl (Finset.mem_insert_of_mem h1)
    · simp only [List.map_cons, List.mem_cons] at h1
      rcases h1 with h2 | h2
      · exact Or.inl (h2 ▸ Finset.mem_insert_self node vis)
      · exact Or.inr h2
  · intro n c hcc
    exact Finset.mem_insert_of_mem (hinv.cuts_visited n c hcc)
  · intro p hp c hcout
    rcases List.mem_append.mp hp with h1 | h1
    · exact Finset.mem_insert_of_mem (hinv.order_children p h1 c hcout)
    · simp only [List.mem_cons, List.not_mem_nil, or_false] at h1
      rw [h1] at hcout
      rcases hall_children c hcout with h2 | h2
      · exact Finset.mem_insert_of_mem (hinv.cuts_visited node c h2)
      · exact Finset.mem_insert_of_mem ((hinv.visited_iff c).mpr (Or.inl h2))
  · show PostOrdered g (ord ++ [(node, cutsOf cts node)])
    intro i hi c hcmem hcforb
    have hlen : (ord ++ [(node, cutsOf cts node)]).length = ord.length + 1 := by
      simp
    by_cases hi' : i < ord.length
    · have hgeti : (ord ++ [(node, cutsOf cts node)]).get ⟨i, hi⟩ =
          ord.get ⟨i, hi'⟩ := List.get_append i hi'
      rw [hgeti] at hcmem hcforb
      obtain ⟨j, hj, hjeq⟩ := hinv.post_ordered i hi' c hcmem hcforb
      refine ⟨j, hj, ?_⟩
      have hgetj : (ord ++ [(node, cutsOf cts node)]).get
          ⟨j, lt_trans hj hi⟩ = ord.get ⟨j, lt_trans hj hi'⟩ :=
        List.get_append j (lt_trans hj hi')
      rw [hgetj]
      exact hjeq
    · have hieq : i = ord.length := by omega
      subst hieq
      have hgeti : (ord ++ [(node, cutsOf cts node)]).get ⟨ord.length, hi⟩ =
          (node, cutsOf cts node) := by
        rw [List.get_eq_getElem]
        exact List.getElem_concat_length _ _ _ rfl _
      rw [hgeti] at hcmem hcforb
      rcases hall_children c hcmem with h1 | h1
      · exact absurd h1 hcforb
      · obtain ⟨p, hp, hp1⟩ := List.mem_map.mp h1
        obtain ⟨j, rfl⟩ := List.mem_iff_get.mp hp
        refine ⟨j.1, j.isLt, ?_⟩
        have hgetj : (ord ++ [(node, cutsOf cts node)]).get
            ⟨j.1, lt_trans j.isLt hi⟩ = ord.get ⟨j.1, j.isLt⟩ :=
          List.get_append j.1 j.isLt
        rw [hgetj]
        have hj2 : (⟨j.1, j.isLt⟩ : Fin ord.length) = j := by
          cases j
          rfl
        rw [hj2]
        exact hp1
  · refine stackInv_mono hrest (fun n c h => h) ?_ ?_
    · intro c hcm
      simp only [List.map_append, List.map_cons, List.map_nil]
      exact List.mem_append_left _ hcm
    · intro c hcm
      simp only [List.mem_singleton] at hcm
      refine Or.inr ?_
      simp only [List.map_append, List.map_cons, List.map_nil]
      refine List.mem_append_right _ ?_
      simp [hcm]

lemma walkStep_done_iff {E : Type} {g : Graph}
    {f : Nat → List Nat → Except E Unit} {s s' : WalkState}
    (h : walkStep g f s = StepRes.done s') : s.stack = [] ∧ s' = s := by
  obtain ⟨vis, stk, pth, cts, ord⟩ := s
  cases stk with
  | nil =>
    rw [walkStep_nil] at h
    cases h
    exact ⟨rfl, rfl⟩
  | cons fr rest =>
    obtain ⟨node, cv⟩ := fr
    by_cases hc : cv < (g.outgoing node).length
    · rw [walkStep_cons_lt g f vis pth cts ord node cv rest hc] at h
      cases h
    · cases hf : f node (cutsOf cts node) with
      | error e =>
        rw [walkStep_cons_ge_err g f vis pth cts ord node cv rest hc e hf] at h
        cases h
      | ok u =>
        cases u
        rw [walkStep_cons_ge_ok g f vis pth cts ord node cv rest hc hf] at h
        cases h

lemma walkStep_fail_shape {E : Type} {g : Graph}
    {f : Nat → List Nat → Except E Unit} {s s' : WalkState} {e : E}
    (h : walkStep g f s = StepRes.fail e s') :
    ∃ node, f node (cutsOf s.cuts node) = Except.error e ∧
      s'.order = s.order ++ [(node, cutsOf s.cuts node)] := by
  obtain ⟨vis, stk, pth, cts, ord⟩ := s
  cases stk with
  | nil =>
    rw [walkStep_nil] at h
    cases h
  | cons fr rest =>
    obtain ⟨node, cv⟩ := fr
    by_cases hc : cv < (g.outgoing node).length
    · rw [walkStep_cons_lt g f vis pth cts ord node cv rest hc] at h
      cases h
    · cases hf : f node (cutsOf cts node) with
      | error e' =>
        rw [walkStep_cons_ge_err g f vis pth cts ord node cv rest hc e' hf] at h
        cases h
        exact ⟨node, hf, rfl⟩
      | ok u =>
        cases u
        rw [walkStep_cons_ge_ok g f vis pth cts ord node cv rest hc hf] at h
        cases h

lemma walkStep_cont_order {E : Type} {g : Graph}
    {f : Nat → List Nat → Except E Unit} {s s' : WalkState}
    (h : walkStep g f s = StepRes.cont s') :
    s'.order = s.order ∨
    ∃ node, s'.order = s.order ++ [(node, cutsOf s.cuts node)] ∧
      f node (cutsOf s.cuts node) = Except.ok () := by
  obtain ⟨vis, stk, pth, cts, ord⟩ := s
  cases stk with
  | nil =>
    rw [walkStep_nil] at h
    cases h
  | cons fr rest =>
    obtain ⟨node, cv⟩ := fr
    by_cases hc : cv < (g.outgoing node).length
    · rw [walkStep_cons_lt g f vis pth cts ord node cv rest hc] at h
      cases h
      exact Or.inl rfl
    · cases hf : f node (cutsOf cts node) with
      | error e' =>
        rw [walkStep_cons_ge_err g f vis pth cts ord node cv rest hc e' hf] at h
        cases h
      | ok u =>
        cases u
        rw [walkStep_cons_ge_ok g f vis pth cts ord node cv rest hc hf] at h
        cases h
        exact Or.inr ⟨node, rfl, hf⟩

lemma walkInv_step {E : Type} {g : Graph} {f : Nat → List Nat → Except E Unit}
    {start : Nat} (hwf : g.WF) {s s' : WalkState}
    (hinv : WalkInv g start s) (hstep : walkStep g f s = StepRes.cont s') :
    WalkInv g start s' := by
  obtain ⟨vis, stk, pth, cts, ord⟩ := s
  cases stk with
  | nil =>
    rw [walkStep_nil] at hstep
    cases hstep
  | cons fr rest =>
    obtain ⟨node, cv⟩ := fr
    by_cases hc : cv < (g.outgoing node).length
    · rw [walkStep_cons_lt g f vis pth cts ord node cv rest hc] at hstep
      by_cases hvis : (g.outgoing node).get ⟨cv, hc⟩ ∈ insert node vis
      · rw [if_pos hvis] at hstep
        by_cases hpath : (g.outgoing node).get ⟨cv, hc⟩ ∈ insert node pth
        · rw [if_pos hpath] at hstep
          cases hstep
          refine walkInv_nonpush hinv hc (fun n c h => mem_cutsOf_cutsAdd h)
            ?_ ?_
          · intro n c h
            rcases mem_cutsOf_cutsAdd_elim h with h1 | ⟨h1, h2⟩
            · exact Finset.mem_insert_of_mem (hinv.cuts_visited n c h1)
            · rcases Finset.mem_insert.mp hpath with he | he
              · rw [h2, he]
                exact Finset.mem_insert_self _ _
              · rw [h2]
                exact Finset.mem_insert_of_mem ((hinv.path_iff _).mp he).2
          · rw [cutsOf_cutsAdd_self]
            exact Or.inl (List.mem_append_right _ (by simp))
        · rw [if_neg hpath] at hstep
          cases hstep
          refine walkInv_nonpush hinv hc (fun n c h => h)
            (fun n c h => Finset.mem_insert_of_mem (hinv.cuts_visited n c h)) ?_
          right
          have hche : (g.outgoing node).get ⟨cv, hc⟩ ≠ node := by
            intro e
            apply hpath
            rw [e]
            exact Finset.mem_insert_self node pth
          have hchvis : (g.outgoing node).get ⟨cv, hc⟩ ∈ vis :=
            (Finset.mem_insert.mp hvis).resolve_left hche
          have hchpth : (g.outgoing node).get ⟨cv, hc⟩ ∉ pth :=
            fun h => hpath (Finset.mem_insert_of_mem h)
          rcases (hinv.visited_iff _).mp hchvis with h1 | h1
          · exact h1
          · exact absurd h1 hchpth
      · have hpath : (g.outgoing node).get ⟨cv, hc⟩ ∉ insert node pth := by
          intro h
          rcases Finset.mem_insert.mp h with h1 | h1
          · apply hvis
            rw [h1]
            exact Finset.mem_insert_self node vis
          · exact hvis (Finset.mem_insert_of_mem ((hinv.path_iff _).mp h1).2)
        rw [if_neg hvis, if_neg hpath] at hstep
        cases hstep
        exact walkInv_push hwf hinv hc hvis
    · cases hf : f node (cutsOf cts node) with
      | error e =>
        rw [walkStep_cons_ge_err g f vis pth cts ord node cv rest hc e hf]
          at hstep
        cases hstep
      | ok u =>
        cases u
        rw [walkStep_cons_ge_ok g f vis pth cts ord node cv rest hc hf] at hstep
        cases hstep
        exact walkInv_post hinv hc

lemma walkInv_init (g : Graph) (start : Nat) (hstart : start < g.len) :
    WalkInv g start (initWalkState start) := by
  refine ⟨?_, ?_, ?_, ?_, ?_, ?_, ?_, ?_, ?_, ?_, ?_, ?_, ?_, ?_, ?_, ?_⟩
  · simp [initWalkState]
  · intro fr hfr
    cases hfr
  · intro fr hfr
    rcases List.mem_cons.mp hfr with h1 | h1
    · rw [h1]
      exact hstart
    · cases h1
  · intro fr hfr
    rcases List.mem_cons.mp hfr with h1 | h1
    · rw [h1]
      exact Nat.zero_le _
    · cases h1
  · intro n hn
    exact absurd hn (Finset.not_mem_empty n)
  · intro n
    simp [initWalkState]
  · intro n
    simp [initWalkState]
  · simp [initWalkState]
  · intro n hn
    simp [initWalkState] at hn
  · intro fr hfr
    rcases List.mem_cons.mp hfr with h1 | h1
    · rw [h1]
      exact Relation.ReflTransGen.refl
    · cases h1
  · intro n hn
    exact absurd hn (Finset.not_mem_empty n)
  · right
    simp [initWalkState]
  · intro n c h
    simp [cutsOf, initWalkState] at h
  · intro p hp c hc
    cases hp
  · intro i hi c hc
    simp [initWalkState] at hi
  · refine ⟨?_, trivial⟩
    intro k hk c hcget
    exact absurd hk (Nat.not_lt_zero k)

/-! ## Walk: termination measure -/

lemma phi_mk (g : Graph) (vis pth : Finset Nat) (stk : List (Nat × Nat))
    (cts ord : List (Nat × List Nat)) :
    phi g ⟨vis, stk, pth, cts, ord⟩ =
      (stk.map (frameWeight g)).sum +
      ∑ n ∈ (Finset.range g.len).filter
          (fun n => n ∉ vis ∧ n ∉ stk.map Prod.fst),
        2 * ((g.outgoing n).length + 1) := rfl

lemma frameWeight_succ {g : Graph} {node cv : Nat}
    (hc : cv < (g.outgoing node).length) :
    frameWeight g (node, cv) = frameWeight g (node, cv + 1) + 2 := by
  show 2 * ((g.outgoing node).length + 1 - cv) - 1 =
    2 * ((g.outgoing node).length + 1 - (cv + 1)) - 1 + 2
  omega

lemma frameWeight_zero (g : Graph) (node : Nat) :
    frameWeight g (node, 0) + 1 = 2 * ((g.outgoing node).length + 1) := by
  show 2 * ((g.outgoing node).length + 1 - 0) - 1 + 1 =
    2 * ((g.outgoing node).length + 1)
  omega

lemma frameWeight_pos {g : Graph} {node cv : Nat}
    (hc : cv ≤ (g.outgoing node).length) : 1 ≤ frameWeight g (node, cv) := by
  show 1 ≤ 2 * ((g.outgoing node).length + 1 - cv) - 1
  omega

lemma phi_step_lt {E : Type} {g : Graph} {f : Nat → List Nat → Except E Unit}
    {start : Nat} (hwf : g.WF) {s s' : WalkState}
    (hinv : WalkInv g start s) (hstep : walkStep g f s = StepRes.cont s') :
    phi g s' < phi g s := by
  obtain ⟨vis, stk, pth, cts, ord⟩ := s
  cases stk with
  | nil =>
    rw [walkStep_nil] at hstep
    cases hstep
  | cons fr rest =>
    obtain ⟨node, cv⟩ := fr
    have hhead : (node, cv) ∈ (node, cv) :: rest := List.mem_cons_self _ _
    have hnode_lt : node < g.len := hinv.stack_lt _ hhead
    by_cases hc : cv < (g.outgoing node).length
    · rw [walkStep_cons_lt g f vis pth cts ord node cv rest hc] at hstep
      by_cases hvis : (g.outgoing node).get ⟨cv, hc⟩ ∈ insert node vis
      · rw [if_pos hvis] at hstep
        cases hstep
        rw [phi_mk, phi_mk]
        have hU : (Finset.range g.len).filter
            (fun n => n ∉ insert node vis ∧
              n ∉ ((node, cv + 1) :: rest).map Prod.fst) =
            (Finset.range g.len).filter
            (fun n => n ∉ vis ∧ n ∉ ((node, cv) :: rest).map Prod.fst) := by
          ext n
          simp only [Finset.mem_filter, Finset.mem_range, Finset.mem_insert,
            List.map_cons, List.mem_cons]
          tauto
        rw [hU]
        simp only [List.map_cons, List.sum_cons]
        have e1 := frameWeight_succ hc
        omega
      · have hpath : (g.outgoing node).get ⟨cv, hc⟩ ∉ insert node pth := by
          intro h
          rcases Finset.mem_insert.mp h with h1 | h1
          · apply hvis
            rw [h1]
            exact Finset.mem_insert_self node vis
          · exact hvis (Finset.mem_insert_of_mem ((hinv.path_iff _).mp h1).2)
        rw [if_neg hvis, if_neg hpath] at hstep
        cases hstep
        set child := (g.outgoing node).get ⟨cv, hc⟩ with hchd
        have hch_out : child ∈ g.outgoing node := by
          rw [hchd]
          exact List.get_mem _ _ _
        have hch_lt : child < g.len := outgoing_lt hwf hnode_lt hch_out
        have hchne : child ≠ node := by
          intro e
          apply hvis
          rw [e]
          exact Finset.mem_insert_self node vis
        have hchnvis : child ∉ vis :=
          fun h => hvis (Finset.mem_insert_of_mem h)
        have hchnrest : child ∉ rest.map Prod.fst := by
          intro hm
          obtain ⟨fr2, hfr2, hfr21⟩ := List.mem_map.mp hm
          exact hchnvis (hfr21 ▸ hinv.tail_visited fr2 hfr2)
        have hchU : child ∈ (Finset.range g.len).filter
            (fun n => n ∉ vis ∧ n ∉ ((node, cv) :: rest).map Prod.fst) := by
          simp only [Finset.mem_filter, Finset.mem_range, List.map_cons,
            List.mem_cons]
          refine ⟨hch_lt, hchnvis, ?_⟩
          push_neg
          exact ⟨hchne, hchnrest⟩
        have hU : (Finset.range g.len).filter
            (fun n => n ∉ insert node vis ∧
              n ∉ ((child, 0) :: (node, cv + 1) :: rest).map Prod.fst) =
            ((Finset.range g.len).filter
              (fun n => n ∉ vis ∧
                n ∉ ((node, cv) :: rest).map Prod.fst)).erase child := by
          ext n
          simp only [Finset.mem_erase, Finset.mem_filter, Finset.mem_range,
            Finset.mem_insert, List.map_cons, List.mem_cons]
          tauto
        have hsum := Finset.sum_erase_add
          ((Finset.range g.len).filter
            (fun n => n ∉ vis ∧ n ∉ ((node, cv) :: rest).map Prod.fst))
          (fun n => 2 * ((g.outgoing n).length + 1)) hchU
        rw [phi_mk, phi_mk, hU]
        simp only [List.map_cons, List.sum_cons] at hsum ⊢
        have e1 := frameWeight_succ hc
        have e2 := frameWeight_zero g child
        omega
    · cases hf : f node (cutsOf cts node) with
      | error e =>
        rw [walkStep_cons_ge_err g f vis pth cts ord node cv rest hc e hf]
          at hstep
        cases hstep
      | ok u =>
        cases u
        rw [walkStep_cons_ge_ok g f vis pth cts ord node cv rest hc hf] at hstep
        cases hstep
        have hcv_le : cv ≤ (g.outgoing node).length := hinv.stack_cv _ hhead
        have hfw := frameWeight_pos hcv_le
        have hU : (Finset.range g.len).filter
            (fun n => n ∉ insert node vis ∧ n ∉ rest.map Prod.fst) =
            (Finset.range g.len).filter
            (fun n => n ∉ vis ∧ n ∉ ((node, cv) :: rest).map Prod.fst) := by
          ext n
          simp only [Finset.mem_filter, Finset.mem_range, Finset.mem_insert,
            List.map_cons, List.mem_cons]
          tauto
        rw [phi_mk, phi_mk, hU]
        simp only [List.map_cons, List.sum_cons]
        omega

lemma phi_init_lt (g : Graph) (start : Nat) (hstart : start < g.len) :
    phi g (initWalkState start) < walkFuel g := by
  have e1 : (Finset.range g.len).filter
      (fun n => n ∉ (∅ : Finset Nat) ∧ n ∉ [(start, 0)].map Prod.fst) =
      (Finset.range g.len).erase start := by
    ext n
    simp only [Finset.mem_erase, Finset.mem_filter, Finset.mem_range,
      Finset.not_mem_empty, not_false_iff, true_and, List.map_cons,
      List.map_nil, List.mem_singleton]
    tauto
  have e2 := Finset.sum_erase_add (Finset.range g.len)
    (fun n => 2 * ((g.outgoing n).length + 1)) (Finset.mem_range.mpr hstart)
  simp only [] at e2
  have e3 := frameWeight_zero g start
  show phi g ⟨∅, [(start, 0)], ∅, [], []⟩ < walkFuel g
  rw [phi_mk, e1]
  unfold walkFuel
  simp only [List.map_cons, List.map_nil, List.sum_cons, List.sum_nil]
  omega

/-! ## Walk: running the loop to completion -/

lemma walkLoop_succ {E : Type} (g : Graph) (f : Nat → List Nat → Except E Unit)
    (n : Nat) (s : WalkState) :
    walkLoop g f (n + 1) s =
      match walkStep g f s with
      | StepRes.done s' => some (WalkRes.ok s')
      | StepRes.fail e s' => some (WalkRes.err e s')
      | StepRes.cont s' => walkLoop g f n s' := rfl

lemma walkLoop_run {E : Type} {g : Graph} {f : Nat → List Nat → Except E Unit}
    {start : Nat} (hwf : g.WF) :
    ∀ (fuel : Nat) (s : WalkState), WalkInv g start s → phi g s < fuel →
    (∃ e sf, walkLoop g f fuel s = some (WalkRes.err e sf)) ∨
    (∃ sf, walkLoop g f fuel s = some (WalkRes.ok sf) ∧
      WalkInv g start sf ∧ sf.stack = []) := by
  intro fuel
  induction fuel with
  | zero =>
    intro s _ h
    omega
  | succ n ih =>
    intro s hinv hphi
    cases hstep : walkStep g f s with
    | done s' =>
      obtain ⟨hnil, rfl⟩ := walkStep_done_iff hstep
      right
      refine ⟨s', ?_, hinv, hnil⟩
      rw [walkLoop_succ, hstep]
    | fail e s' =>
      left
      refine ⟨e, s', ?_⟩
      rw [walkLoop_succ, hstep]
    | cont s' =>
      have hinv' := walkInv_step hwf hinv hstep
      have hphi' := phi_step_lt hwf hinv hstep
      have hred : walkLoop g f (n + 1) s = walkLoop g f n s' := by
        rw [walkLoop_succ, hstep]
      rcases ih s' hinv' (by omega) with ⟨e, sf, h⟩ | ⟨sf, h, hi2, hs2⟩
      · left
        exact ⟨e, sf, by rw [hred]; exact h⟩
      · right
        exact ⟨sf, by rw [hred]; exact h, hi2, hs2⟩

lemma walk_run {E : Type} (g : Graph) (f : Nat → List Nat → Except E Unit)
    (start : Nat) (hwf : g.WF) (hstart : start < g.len) :
    (∃ e sf, g.walk_dfs_post_order start f = some (WalkRes.err e sf)) ∨
    (∃ sf, g.walk_dfs_post_order start f = some (WalkRes.ok sf) ∧
      WalkInv g start sf ∧ sf.stack = []) :=
  walkLoop_run hwf (walkFuel g) (initWalkState start)
    (walkInv_init g start hstart) (phi_init_lt g start hstart)

lemma walkLoop_order {E : Type} {g : Graph}
    {f : Nat → List Nat → Except E Unit} :
    ∀ (fuel : Nat) (s : WalkState),
    (∀ p ∈ s.order, f p.1 p.2 = Except.ok ()) →
    (∀ e sf, walkLoop g f fuel s = some (WalkRes.err e sf) →
      ∃ pre q, sf.order = pre ++ [q] ∧ f q.1 q.2 = Except.error e ∧
        ∀ p ∈ pre, f p.1 p.2 = Except.ok ()) ∧
    (∀ sf, walkLoop g f fuel s = some (WalkRes.ok sf) →
      ∀ p ∈ sf.order, f p.1 p.2 = Except.ok ()) := by
  intro fuel
  induction fuel with
  | zero =>
    intro s hok
    constructor
    · intro e sf h
      cases h
    · intro sf h
      cases h
  | succ n ih =>
    intro s hok
    cases hstep : walkStep g f s with
    | done s' =>
      obtain ⟨hnil, rfl⟩ := walkStep_done_iff hstep
      constructor
      · intro e sf h
        rw [walkLoop_succ, hstep] at h
        cases h
      · intro sf h
        rw [walkLoop_succ, hstep] at h
        cases h
        exact hok
    | fail e' s' =>
      obtain ⟨node, hferr, hord⟩ := walkStep_fail_shape hstep
      constructor
      · intro e sf h
        rw [walkLoop_succ, hstep] at h
        cases h
        exact ⟨s.order, (node, cutsOf s.cuts node), hord, hferr, hok⟩
      · intro sf h
        rw [walkLoop_succ, hstep] at h
        cases h
    | cont s' =>
      have hok' : ∀ p ∈ s'.order, f p.1 p.2 = Except.ok () := by
        rcases walkStep_cont_order hstep with h1 | ⟨node, h1, h2⟩
        · rw [h1]
          exact hok
        · rw [h1]
          intro p hp
          rcases List.mem_append.mp hp with hm | hm
          · exact hok p hm
          · simp only [List.mem_singleton] at hm
            rw [hm]
            exact h2
      have hred : walkLoop g f (n + 1) s = walkLoop g f n s' := by
        rw [walkLoop_succ, hstep]
      constructor
      · intro e sf h
        rw [hred] at h
        exact (ih s' hok').1 e sf h
      · intro sf h
        rw [hred] at h
        exact (ih s' hok').2 sf h

/-! ## C1, C2, C7: the walk claims -/

lemma storeLookupsOk_aux (g : Graph) :
    ∀ (ord : List (Nat × List Nat)) (done : List Nat),
    (∀ i, (hi : i < ord.length) → ∀ c ∈ g.outgoing (ord.get ⟨i, hi⟩).1,
      c ∉ (ord.get ⟨i, hi⟩).2 →
      (∃ j, ∃ hj : j < i, (ord.get ⟨j, lt_trans hj hi⟩).1 = c) ∨ c ∈ done) →
    storeLookupsOk g ord done = true := by
  intro ord
  induction ord with
  | nil =>
    intro done _
    rfl
  | cons q rest ih =>
    intro done h
    obtain ⟨nn, forb⟩ := q
    show (((g.outgoing nn).all fun c => decide (c ∈ forb) || decide (c ∈ done))
      && storeLookupsOk g rest (nn :: done)) = true
    rw [Bool.and_eq_true]
    constructor
    · rw [List.all_eq_true]
      intro c hc
      by_cases hcf : c ∈ forb
      · simp [hcf]
      · have h0 := h 0 (Nat.succ_pos _) c hc hcf
        rcases h0 with ⟨j, hj, _⟩ | hdone
        · exact absurd hj (Nat.not_lt_zero j)
        · simp [hdone]
    · apply ih (nn :: done)
      intro i hi c hc hcf
      have hi' : i + 1 < ((nn, forb) :: rest).length := by
        simpa using Nat.succ_lt_succ hi
      have h1 := h (i + 1) hi' c hc hcf
      rcases h1 with ⟨j, hj, hjeq⟩ | hdone
      · cases j with
        | zero =>
          right
          have he : nn = c := hjeq
          rw [← he]
          exact List.mem_cons_self _ _
        | succ j' =>
          left
          have hj' : j' < i := by omega
          exact ⟨j', hj', hjeq⟩
      · right
        exact List.mem_cons_of_mem _ hdone

lemma final_visited_iff_order {g : Graph} {start : Nat} {sf : WalkState}
    (hinv : WalkInv g start sf) (hnil : sf.stack = []) :
    ∀ n, n ∈ sf.visited ↔ n ∈ sf.order.map Prod.fst := by
  intro n
  rw [hinv.visited_iff n]
  have hpath : n ∉ sf.path := by
    intro h
    have h2 := (hinv.path_iff n).mp h
    rw [hnil] at h2
    simp at h2
  tauto

lemma final_order_iff_reachable {g : Graph} {start : Nat} {sf : WalkState}
    (hinv : WalkInv g start sf) (hnil : sf.stack = []) :
    ∀ n, n ∈ sf.order.map Prod.fst ↔ Reachable g start n := by
  have hstart_vis : start ∈ sf.visited := by
    rcases hinv.start_mem with h | h
    · exact h
    · rw [hnil] at h
      simp at h
  have hclosed : ∀ m ∈ sf.visited, ∀ c ∈ g.outgoing m, c ∈ sf.visited := by
    intro m hm c hc
    have hmord : m ∈ sf.order.map Prod.fst :=
      (final_visited_iff_order hinv hnil m).mp hm
    obtain ⟨p, hp, hp1⟩ := List.mem_map.mp hmord
    refine hinv.order_children p hp c ?_
    rw [hp1]
    exact hc
  have hreach_vis : ∀ n, Reachable g start n → n ∈ sf.visited := by
    intro n hr
    induction hr with
    | refl => exact hstart_vis
    | tail hsub hedge ih => exact hclosed _ ih _ hedge
  intro n
  rw [← final_visited_iff_order hinv hnil n]
  exact ⟨hinv.reach_visited n, hreach_vis n⟩

/-- Claim C1: the walk succeeds, its visitor-invocation log is post-ordered
(every non-forbidden child of a node is invoked strictly before the node),
and therefore in `store_categories_in_git` every `hashes.get(out)` lookup of
a non-forbidden child finds the child already inserted — the
`expect("Children should be already added")` branch is unreachable. -/
theorem walk_post_order_store (g : Graph) (start : Nat) (hwf : g.WF)
    (hstart : start < g.len) :
    ∃ sf, g.walk_dfs_post_order start okVis = some (WalkRes.ok sf) ∧
      PostOrdered g sf.order ∧ storeLookupsOk g sf.order [] = true := by
  rcases walk_run g okVis start hwf hstart with ⟨e, sf, h⟩ | ⟨sf, h, hinv, hnil⟩
  · obtain ⟨pre, q, -, hq, -⟩ :=
      (walkLoop_order (walkFuel g) (initWalkState start)
        (by intro p hp; cases hp)).1 e sf h
    simp [okVis] at hq
  · refine ⟨sf, h, hinv.post_ordered, ?_⟩
    apply storeLookupsOk_aux
    intro i hi c hc hcf
    exact Or.inl (hinv.post_ordered i hi c hc hcf)

/-- Witness for C1 on the two-node cycle. -/
theorem walk_post_order_store_witness :
    ∃ sf, cycleGraph.walk_dfs_post_order 0 okVis = some (WalkRes.ok sf) ∧
      PostOrdered cycleGraph sf.order ∧
      storeLookupsOk cycleGraph sf.order [] = true :=
  walk_post_order_store cycleGraph 0 (by decide) (by decide)

/-- Claim C2: on every well-formed graph the walk terminates from any start
node, invoking the visitor exactly once per node reachable from the start;
on the cycle `{A→B, B→A}` started at `A` (index 0) it visits `B` then `A`,
once each, recording the back-edge `B→A` as the forbidden edge of `B`. -/
theorem walk_terminates_visits_once :
    (∀ (g : Graph) (start : Nat), g.WF → start < g.len →
      ∃ sf, g.walk_dfs_post_order start okVis = some (WalkRes.ok sf) ∧
        (sf.order.map Prod.fst).Nodup ∧
        (∀ n, n ∈ sf.order.map Prod.fst ↔ Reachable g start n)) ∧
    walkOrderOf cycleGraph 0 = [(1, [0]), (0, [])] := by
  constructor
  · intro g start hwf hstart
    rcases walk_run g okVis start hwf hstart with ⟨e, sf, h⟩ |
      ⟨sf, h, hinv, hnil⟩
    · obtain ⟨pre, q, -, hq, -⟩ :=
        (walkLoop_order (walkFuel g) (initWalkState start)
          (by intro p hp; cases hp)).1 e sf h
      simp [okVis] at hq
    · exact ⟨sf, h, hinv.nodup_order, final_order_iff_reachable hinv hnil⟩
  · decide

/-- Witness for C2 on the two-node cycle. -/
theorem walk_terminates_visits_once_witness :
    ∃ sf, cycleGraph.walk_dfs_post_order 0 okVis = some (WalkRes.ok sf) ∧
      (sf.order.map Prod.fst).Nodup ∧
      (∀ n, n ∈ sf.order.map Prod.fst ↔ Reachable cycleGraph 0 n) :=
  walk_terminates_visits_once.1 cycleGraph 0 (by decide) (by decide)

/-- Claim C7: the walk always terminates with some result; when it returns
an error, that error is the one produced by the first failing visitor
invocation and the log ends at that invocation (no later node is visited);
when it returns successfully, no invocation failed. -/
theorem walk_visitor_error_aborts (E : Type) (g : Graph)
    (f : Nat → List Nat → Except E Unit) (start : Nat)
    (hwf : g.WF) (hstart : start < g.len) :
    (∃ r, g.walk_dfs_post_order start f = some r) ∧
    (∀ e sf, g.walk_dfs_post_order start f = some (WalkRes.err e sf) →
      ∃ pre q, sf.order = pre ++ [q] ∧ f q.1 q.2 = Except.error e ∧
        ∀ p ∈ pre, f p.1 p.2 = Except.ok ()) ∧
    (∀ sf, g.walk_dfs_post_order start f = some (WalkRes.ok sf) →
      ∀ p ∈ sf.order, f p.1 p.2 = Except.ok ()) := by
  have horder := walkLoop_order (g := g) (f := f) (walkFuel g)
    (initWalkState start) (by intro p hp; cases hp)
  refine ⟨?_, horder.1, horder.2⟩
  rcases walk_run g f start hwf hstart with ⟨e, sf, h⟩ | ⟨sf, h, -, -⟩
  · exact ⟨_, h⟩
  · exact ⟨_, h⟩

/-- Witness for C7 with an always-failing visitor on the two-node cycle. -/
theorem walk_visitor_error_aborts_witness :
    ∃ r, cycleGraph.walk_dfs_post_order 0
      (fun _ _ => (Except.error () : Except Unit Unit)) = some r :=
  (walk_visitor_error_aborts Unit cycleGraph
    (fun _ _ => Except.error ()) 0 (by decide) (by decide)).1
